import Mathlib

/-!
# Patient priority queue: a shallow embedding

The C++ sources `Patient.h`, `PatientPriorityQueuex.h` and `p3x.cpp` are
embedded as Lean functions.

Conventions of the embedding:

* `std::string` is a `List Char`;
* `int` fields of a patient are `Int` (no operation of the program can
  overflow them: the only arithmetic is `--arrivalTime`, executed on a value
  strictly larger than another `int`, and `size() + 1`);
* array indices and `heapSize` are `Nat` (`heapSize` starts at `0`, is
  incremented by `add` and decremented by `remove` only after the assertion
  `heapSize != 0`);
* `vector<Patient>` is a `List Patient`; an access out of bounds (undefined
  behaviour in C++), a failing `assert`, and an exhausted recursion budget all
  give `none`;
* the recursive functions `siftUp` and `siftDown` carry a recursion budget
  (`fuel`); the entry points pass a budget that is proved sufficient;
* `for` loops with a loop-invariant bound are recursions on the number of
  iterations that remain;
* output written to `cout` is not modelled.
-/

set_option autoImplicit false

/-! ## Patient.h -/

/-- A patient record: `name`, `priorityCode`, `arrivalTime`. -/
structure Patient where
  name : List Char
  priorityCode : Int
  arrivalTime : Int
deriving DecidableEq, Repr

namespace Patient

/-- The getter `Patient::getName`. -/
def getName (p : Patient) : List Char := p.name

/-- The getter `Patient::getPriorityCode`. -/
def getPriorityCode (p : Patient) : Int := p.priorityCode

/-- The getter `Patient::getArrivalTime`. -/
def getArrivalTime (p : Patient) : Int := p.arrivalTime

/-- The method `Patient::decrementArrival`: `--arrivalTime`. -/
def decrementArrival (p : Patient) : Patient :=
  { p with arrivalTime := p.arrivalTime - 1 }

/-- The operator `Patient::operator<`. -/
def lt (self other : Patient) : Bool :=
  if self.priorityCode < other.priorityCode then true
  else if self.priorityCode = other.priorityCode then
    decide (self.arrivalTime > other.arrivalTime)
  else false

/-- The operator `Patient::operator>`. -/
def gt (self other : Patient) : Bool :=
  if self.priorityCode > other.priorityCode then true
  else if self.priorityCode = other.priorityCode then
    decide (self.arrivalTime > other.arrivalTime)
  else false

end Patient

/-! ## PatientPriorityQueuex.h -/

/-- The queue object: the vector `data` and the counter `heapSize`. -/
structure PatientPriorityQueuex where
  data : List Patient
  heapSize : Nat
deriving DecidableEq, Repr

namespace PatientPriorityQueuex

/-- The constructor: an empty vector and `heapSize = 0`. -/
def empty : PatientPriorityQueuex := ⟨[], 0⟩

/-- The index helper `getParent`: `(index - 1) / 2`, called with `index ≠ 0` only. -/
def getParent (index : Nat) : Nat := (index - 1) / 2

/-- The index helper `getLeftChild`: `2 * index + 1`. -/
def getLeftChild (index : Nat) : Nat := 2 * index + 1

/-- The index helper `getRightChild`: `2 * index + 2`. -/
def getRightChild (index : Nat) : Nat := 2 * index + 2

/-- The call `swap(data[a], data[b])`; `none` when an index is out of bounds. -/
def swapAt (data : List Patient) (a b : Nat) : Option (List Patient) :=
  match data[a]?, data[b]? with
  | some x, some y => some ((data.set a y).set b x)
  | _, _ => none

/-- The recursion of `siftUp`, with a budget of calls. -/
def siftUpFuel : Nat → List Patient → Nat → Option (List Patient)
  | 0, _, _ => none
  | fuel + 1, data, index =>
    if index ≠ 0 then
      let parentIdx := getParent index
      match data[parentIdx]?, data[index]? with
      | some p, some c =>
        if p.gt c then
          match swapAt data parentIdx index with
          | some data1 => siftUpFuel fuel data1 parentIdx
          | none => none
        else some data
      | _, _ => none
    else some data

/-- The method `siftUp(index)`: at most `index + 1` calls are needed. -/
def siftUp (data : List Patient) (index : Nat) : Option (List Patient) :=
  siftUpFuel (index + 1) data index

/-- The recursion of `siftDown`, with a budget of calls. -/
def siftDownFuel : Nat → List Patient → Nat → Option (List Patient)
  | 0, _, _ => none
  | fuel + 1, data, index =>
    let leftIdx := getLeftChild index
    let rightIdx := getRightChild index
    let chosen : Option (Option Nat) :=
      if rightIdx ≥ data.length then
        if leftIdx ≥ data.length then some none
        else some (some leftIdx)
      else
        match data[leftIdx]?, data[rightIdx]? with
        | some l, some r => if l.gt r then some (some leftIdx) else some (some rightIdx)
        | _, _ => none
    match chosen with
    | none => none
    | some none => some data
    | some (some maxIdx) =>
      match data[index]?, data[maxIdx]? with
      | some x, some m =>
        if x.lt m then
          match swapAt data maxIdx index with
          | some data1 => siftDownFuel fuel data1 maxIdx
          | none => none
        else some data
      | _, _ => none

/-- The method `siftDown(index)`: at most `data.size() + 1` calls are needed. -/
def siftDown (data : List Patient) (index : Nat) : Option (List Patient) :=
  siftDownFuel (data.length + 1) data index

/-- The method `size`. -/
def size (q : PatientPriorityQueuex) : Nat := q.heapSize

/-- The method `add`: `heapSize++; data.push_back(patient); siftUp(heapSize - 1)`. -/
def add (q : PatientPriorityQueuex) (patient : Patient) : Option PatientPriorityQueuex :=
  let heapSize := q.heapSize + 1
  let data := q.data ++ [patient]
  match siftUp data (heapSize - 1) with
  | some data1 => some ⟨data1, heapSize⟩
  | none => none

/-- The renumbering loop of `remove`: `remaining` iterations are left, the
next one is for index `i`. -/
def removeLoop : Nat → Nat → List Patient → Option (List Patient)
  | 0, _, data => some data
  | remaining + 1, i, data =>
    match data[i]?, data[0]? with
    | some e, some root =>
      if e.getArrivalTime > root.getArrivalTime then
        removeLoop remaining (i + 1) (data.set i e.decrementArrival)
      else removeLoop remaining (i + 1) data
    | _, _ => none

/-- The method `remove`. -/
def remove (q : PatientPriorityQueuex) : Option PatientPriorityQueuex :=
  if q.heapSize = 0 then none
  else
    match removeLoop q.heapSize 0 q.data with
    | none => none
    | some data1 =>
      let heapSize := q.heapSize - 1
      match data1[heapSize]? with
      | none => none
      | some last =>
        let data2 := (data1.set 0 last).dropLast
        if heapSize > 1 then
          match siftDown data2 0 with
          | some data3 => some ⟨data3, heapSize⟩
          | none => none
        else some ⟨data2, heapSize⟩

/-- The method `peek`: the name of `data.front()`. -/
def peek (q : PatientPriorityQueuex) : Option (List Char) :=
  if q.heapSize = 0 then none
  else
    match q.data.head? with
    | some p => some p.getName
    | none => none

/-- The static method `getPriorityString`: `priorities[priority - 1]`. -/
def getPriorityString (priority : Int) : Option (List Char) :=
  let priorities : List (List Char) :=
    ["immediate".toList, "emergency".toList, "urgent".toList, "minimal".toList]
  if 0 ≤ priority - 1 then priorities[(priority - 1).toNat]? else none

/-- The search loop of `change`: `remaining` iterations are left, the next
one is for index `i`. The result is the vector and the returned message. -/
def changeLoop (arrivalID newPriority : Int) :
    Nat → Nat → List Patient → Option (List Patient × List Char)
  | 0, _, data => some (data, "Patient with given id was not found.".toList)
  | remaining + 1, i, data =>
    match data[i]? with
    | none => none
    | some e =>
      if e.getArrivalTime = arrivalID then
        let replacedCode : Patient := ⟨e.getName, newPriority, e.getPriorityCode⟩
        let data1 := data.set i replacedCode
        match data1[i]? with
        | none => none
        | some e1 =>
          match getPriorityString e1.getPriorityCode with
          | none => none
          | some s =>
            some (data1, "Changed patient ".toList ++ e1.getName ++
              "'s priority to ".toList ++ s)
      else changeLoop arrivalID newPriority remaining (i + 1) data

/-- The method `change(arrivalID, newPriority)`: the new state and the
returned message. -/
def change (q : PatientPriorityQueuex) (arrivalID newPriority : Int) :
    Option (PatientPriorityQueuex × List Char) :=
  match changeLoop arrivalID newPriority q.heapSize 0 q.data with
  | some (data1, msg) => some (⟨data1, q.heapSize⟩, msg)
  | none => none

/-- Stream output of a string under `setw(w)` with the `left` flag. -/
def padLeftAligned (w : Nat) (s : List Char) : List Char :=
  s ++ List.replicate (w - s.length) ' '

/-- Stream output of a string under `setw(w)` with the `right` flag. -/
def padRightAligned (w : Nat) (s : List Char) : List Char :=
  List.replicate (w - s.length) ' ' ++ s

/-- Stream output of an `int` in decimal. -/
def showInt (n : Int) : List Char := (toString n).toList

/-- The row loop of `to_string`. -/
def toStringLoop (heapSize : Nat) : Nat → Nat → List Patient → List Char → Option (List Char)
  | 0, _, _, ss => some ss
  | remaining + 1, i, data, ss =>
    match data[i]? with
    | none => none
    | some e =>
      match getPriorityString e.getPriorityCode with
      | none => none
      | some s =>
        let ss1 := ss ++ padRightAligned 7 (showInt e.getArrivalTime) ++ ['\t']
        let ss2 := ss1 ++ ['\t'] ++ padLeftAligned 13 s
        let ss3 := ss2 ++ padLeftAligned 16 e.getName
        let ss4 := if i < heapSize - 1 then ss3 ++ ['\n'] else ss3
        toStringLoop heapSize remaining (i + 1) data ss4

/-- The method `to_string`. -/
def to_string (q : PatientPriorityQueuex) : Option (List Char) :=
  match toStringLoop q.heapSize q.heapSize 0 q.data [] with
  | some ss => some (ss ++ ['\n'])
  | none => none

/-- The inner loop of the bubble sort in `sortByArrival`. -/
def sortInnerLoop : Nat → Nat → List Patient → Option (List Patient)
  | 0, _, copy => some copy
  | remaining + 1, j, copy =>
    match copy[j]?, copy[j + 1]? with
    | some a, some b =>
      if a.getArrivalTime > b.getArrivalTime then
        match swapAt copy j (j + 1) with
        | some copy1 => sortInnerLoop remaining (j + 1) copy1
        | none => none
      else sortInnerLoop remaining (j + 1) copy
    | _, _ => none

/-- The outer loop of the bubble sort in `sortByArrival`. -/
def sortOuterLoop (heapSize : Nat) : Nat → Nat → List Patient → Option (List Patient)
  | 0, _, copy => some copy
  | remaining + 1, i, copy =>
    match sortInnerLoop (heapSize - i - 1) 0 copy with
    | some copy1 => sortOuterLoop heapSize remaining (i + 1) copy1
    | none => none

/-- The method `sortByArrival`: a bubble sort of a copy of `data`. -/
def sortByArrival (q : PatientPriorityQueuex) : Option (List Patient) :=
  sortOuterLoop q.heapSize (q.heapSize - 1) 0 q.data

/-- The line loop of `save`. -/
def saveLoop (heapSize : Nat) : Nat → Nat → List Patient → List Char → Option (List Char)
  | 0, _, _, ss => some ss
  | remaining + 1, i, copy, ss =>
    match copy[i]? with
    | none => none
    | some e =>
      match getPriorityString e.getPriorityCode with
      | none => none
      | some s =>
        let ss1 := ss ++ "add ".toList ++ s ++ " ".toList ++ e.getName
        let ss2 := if i < heapSize - 1 then ss1 ++ ['\n'] else ss1
        saveLoop heapSize remaining (i + 1) copy ss2

/-- The method `save`. -/
def save (q : PatientPriorityQueuex) : Option (List Char) :=
  match sortByArrival q with
  | none => none
  | some copy =>
    match saveLoop q.heapSize q.heapSize 0 copy [] with
    | some ss => some (ss ++ ['\n'])
    | none => none

end PatientPriorityQueuex

/-! ## p3x.cpp -/

namespace P3x

open PatientPriorityQueuex

/-- The library call `s.find(c)`: the position of the first `c` in `s`. -/
def strFind (c : Char) : List Char → Option Nat
  | [] => none
  | x :: xs => if x = c then some 0 else (strFind c xs).map (· + 1)

/-- The library call `str.find_first_not_of(c)`. -/
def findFirstNotOf (c : Char) : List Char → Option Nat
  | [] => none
  | x :: xs => if x ≠ c then some 0 else (findFirstNotOf c xs).map (· + 1)

/-- The library call `str.find_last_not_of(c)`. -/
def findLastNotOf (c : Char) : List Char → Option Nat
  | [] => none
  | x :: xs =>
    match findLastNotOf c xs with
    | some k => some (k + 1)
    | none => if x ≠ c then some 0 else none

/-- The library call `str.substr(pos, count)` for `pos ≤ str.length()`. -/
def substr (str : List Char) (pos count : Nat) : List Char :=
  (str.drop pos).take count

/-- The lines that the loop `while (getline(infile, line))` reads from a file
with the given content; `cur` is the line read so far. -/
def getlinesFrom : List Char → List Char → List (List Char)
  | cur, [] => if cur = [] then [] else [cur]
  | cur, c :: rest =>
    if c = '\n' then cur :: getlinesFrom [] rest else getlinesFrom (cur ++ [c]) rest

/-- The lines that `while (getline(infile, line))` reads from a file. -/
def getlines (content : List Char) : List (List Char) := getlinesFrom [] content

/-- The function `delimitBySpace`: the returned token and the new value of
the reference argument `s`. -/
def delimitBySpace (s : List Char) : List Char × List Char :=
  match strFind ' ' s with
  | none => (s, s)
  | some pos => (substr s 0 pos, s.drop (pos + 1))

/-- The library call `tolower` on a `char`, in the "C" locale. -/
def tolower (c : Char) : Char :=
  if 'A' ≤ c ∧ c ≤ 'Z' then Char.ofNat (c.toNat + 32) else c

/-- The function `toLower`. -/
def toLower (str : List Char) : List Char := str.map tolower

/-- The function `trim`. -/
def trim (str : List Char) : List Char :=
  match findFirstNotOf ' ' str, findLastNotOf ' ' str with
  | some start, some endIdx => substr str start (endIdx - start + 1)
  | _, _ => []

/-- The function `parseAddPatientInput`: `none` when it returns `false`,
otherwise the values of the reference arguments `priority` and `name`. -/
def parseAddPatientInput (line : List Char) : Option (List Char × List Char) :=
  let line1 := trim line
  let tok := delimitBySpace line1
  let priority := toLower tok.1
  if priority.length = 0 then none
  else
    let name := trim tok.2
    if name.length = 0 then none else some (priority, name)

/-- The function `getPriorityCode`, its four iterations written out. -/
def getPriorityCode (priority : List Char) : Int :=
  if "immediate".toList = priority then 1
  else if "emergency".toList = priority then 2
  else if "urgent".toList = priority then 3
  else if "minimal".toList = priority then 4
  else -1

/-- The function `addPatientCmd`. -/
def addPatientCmd (line : List Char) (priQueue : PatientPriorityQueuex) :
    Option PatientPriorityQueuex :=
  match parseAddPatientInput line with
  | none => some priQueue
  | some (priority, name) =>
    let priorityCode := getPriorityCode priority
    if priorityCode = -1 then some priQueue
    else priQueue.add ⟨name, priorityCode, (priQueue.size : Int) + 1⟩

/-- The function `change` of the interpreter; `extractInt` is the stream
extraction `ss >> arrivalID`. -/
def change (extractInt : List Char → Int) (line : List Char)
    (priQueue : PatientPriorityQueuex) : Option PatientPriorityQueuex :=
  if line.length = 0 then some priQueue
  else
    let tok := delimitBySpace line
    let arrivalID := extractInt tok.1
    let line1 := trim (toLower tok.2)
    let priorityCode := getPriorityCode line1
    if priorityCode = -1 then some priQueue
    else
      match priQueue.change arrivalID priorityCode with
      | some r => some r.1
      | none => none

/-- The function `peekNextCmd`. -/
def peekNextCmd (priQueue : PatientPriorityQueuex) : Option PatientPriorityQueuex :=
  if priQueue.size = 0 then some priQueue
  else
    match priQueue.peek with
    | some _ => some priQueue
    | none => none

/-- The function `removePatientCmd`. -/
def removePatientCmd (priQueue : PatientPriorityQueuex) : Option PatientPriorityQueuex :=
  if priQueue.size = 0 then some priQueue
  else
    match priQueue.peek with
    | some _ => priQueue.remove
    | none => none

/-- The function `showPatientListCmd`. -/
def showPatientListCmd (priQueue : PatientPriorityQueuex) : Option PatientPriorityQueuex :=
  match priQueue.to_string with
  | some _ => some priQueue
  | none => none

/-- The files the interpreter can see: the content of each file that can be
opened for reading, and which names can be opened for writing. -/
structure Files where
  content : List Char → Option (List Char)
  writable : List Char → Bool

/-- The function `save` of the interpreter. -/
def save (fileName : List Char) (files : Files) (priQueue : PatientPriorityQueuex) :
    Option Files :=
  let fileName1 := trim fileName
  if fileName1.length = 0 then some files
  else if files.writable fileName1 = false then some files
  else
    match priQueue.save with
    | some text =>
      some { files with
        content := fun n => if n = fileName1 then some text else files.content n }
    | none => none

/-- The function `processLine`, together with `execCommandsFromFileCmd` (the
`load` branch, which reads the file as it is when opened and discards the
result of each line). `fuel` bounds the nesting of `load` commands. The result
is the returned `bool` and the new files and queue. -/
def processLineFuel (extractInt : List Char → Int) :
    Nat → List Char → Files × PatientPriorityQueuex →
      Option (Bool × (Files × PatientPriorityQueuex))
  | 0, _, _ => none
  | fuel + 1, line, st =>
    let tok := delimitBySpace line
    if tok.1.length = 0 then some (false, st)
    else
      let cmd := toLower tok.1
      let line1 := tok.2
      if cmd = "help".toList then some (true, st)
      else if cmd = "add".toList then
        match addPatientCmd line1 st.2 with
        | some q1 => some (true, (st.1, q1))
        | none => none
      else if cmd = "change".toList then
        match change extractInt line1 st.2 with
        | some q1 => some (true, (st.1, q1))
        | none => none
      else if cmd = "peek".toList then
        match peekNextCmd st.2 with
        | some q1 => some (true, (st.1, q1))
        | none => none
      else if cmd = "next".toList then
        match removePatientCmd st.2 with
        | some q1 => some (true, (st.1, q1))
        | none => none
      else if cmd = "list".toList then
        match showPatientListCmd st.2 with
        | some q1 => some (true, (st.1, q1))
        | none => none
      else if cmd = "load".toList then
        match st.1.content (trim line1) with
        | some text =>
          match (getlines text).foldlM
              (fun s l => (processLineFuel extractInt fuel l s).map Prod.snd) st with
          | some st1 => some (true, st1)
          | none => none
        | none => some (true, st)
      else if cmd = "save".toList then
        match save line1 st.1 st.2 with
        | some files1 => some (true, (files1, st.2))
        | none => none
      else if cmd = "quit".toList then some (false, st)
      else some (true, st)

/-- The loop of `execCommandsFromFileCmd` over the lines of a file: each line
goes through `processLine`, whose result is discarded. -/
def replayLines (extractInt : List Char → Int) (fuel : Nat) (lines : List (List Char))
    (st : Files × PatientPriorityQueuex) : Option (Files × PatientPriorityQueuex) :=
  lines.foldlM (fun s l => (processLineFuel extractInt fuel l s).map Prod.snd) st

end P3x

/-! ## Vocabulary of the statements -/

namespace PatientPriorityQueuex

/-- The call made by the interpreter for a new patient:
`add(Patient(name, priorityCode, size() + 1))`. -/
def addNext (q : PatientPriorityQueuex) (priorityCode : Int) (name : List Char) :
    Option PatientPriorityQueuex :=
  q.add ⟨name, priorityCode, (q.size : Int) + 1⟩

/-- The queues reached from the empty queue by `add` calls with arrival
number `size() + 1` and by `remove` calls that return. -/
inductive Reachable : PatientPriorityQueuex → Prop
  | init : Reachable empty
  | add (q q1 : PatientPriorityQueuex) (priorityCode : Int) (name : List Char) :
      Reachable q → q.addNext priorityCode name = some q1 → Reachable q1
  | remove (q q1 : PatientPriorityQueuex) :
      Reachable q → q.remove = some q1 → Reachable q1

/-- The queues reached from the empty queue by `add` calls alone, each with
arrival number `size() + 1`. -/
inductive ReachableByAdd : PatientPriorityQueuex → Prop
  | init : ReachableByAdd empty
  | add (q q1 : PatientPriorityQueuex) (priorityCode : Int) (name : List Char) :
      ReachableByAdd q → q.addNext priorityCode name = some q1 → ReachableByAdd q1

/-- The renumbering of one entry by `remove`, for a root with arrival number
`rootArrival`. -/
def renumber (rootArrival : Int) (e : Patient) : Patient :=
  if e.getArrivalTime > rootArrival then e.decrementArrival else e

/-- The arrival numbers are pairwise distinct and lie in `1..n`. -/
def DenseArrivals (q : PatientPriorityQueuex) : Prop :=
  q.heapSize = q.data.length ∧ (q.data.map Patient.arrivalTime).Nodup ∧
    ∀ a ∈ q.data.map Patient.arrivalTime, 1 ≤ a ∧ a ≤ (q.data.length : Int)

/-- The order of the specification: entry `c` ranks above entry `p` when its
class is numerically smaller, or the classes are equal and its arrival number
is smaller. -/
def specRanksAbove (c p : Patient) : Prop :=
  c.priorityCode < p.priorityCode ∨
    (c.priorityCode = p.priorityCode ∧ c.arrivalTime < p.arrivalTime)

/-- The heap invariant of the specification: no existing child at `2i+1` or
`2i+2` ranks above its parent at `i`. -/
def SpecHeapInvariant (data : List Patient) : Prop :=
  ∀ (i c : Nat) (p e : Patient), c = 2 * i + 1 ∨ c = 2 * i + 2 →
    data[i]? = some p → data[c]? = some e → ¬ specRanksAbove e p

/-- The heap property that `siftUp` works towards: no parent is `>` its child
(`Patient::operator>`), where the parent of index `j > 0` is `getParent j`. -/
def MinHeap (data : List Patient) : Prop :=
  ∀ (j : Nat) (p c : Patient), 0 < j →
    data[getParent j]? = some p → data[j]? = some c → p.gt c = false

/-- The heap property everywhere except between index `k` and its parent,
with the children of `k` already in order with the parent of `k`: the state
of the vector when `siftUp(k)` is called. -/
def HeapExcept (data : List Patient) (k : Nat) : Prop :=
  (∀ (j : Nat) (p c : Patient), 0 < j → j ≠ k →
    data[getParent j]? = some p → data[j]? = some c → p.gt c = false) ∧
  (∀ (j : Nat) (g c : Patient), 0 < j → getParent j = k → 0 < k →
    data[getParent k]? = some g → data[j]? = some c → g.gt c = false)

/-- The name of a priority class in `1..4`, as `getPriorityString` gives it
(empty for any other value). -/
def priorityName (priority : Int) : List Char :=
  (getPriorityString priority).getD []

/-- The line that `save` writes for an entry: `add <priority name> <name>`. -/
def exportLine (e : Patient) : List Char :=
  "add ".toList ++ priorityName e.priorityCode ++ " ".toList ++ e.name

end PatientPriorityQueuex

namespace P3x

/-- A file system with no readable and no writable file. -/
def noFiles : Files := ⟨fun _ => none, fun _ => false⟩

end P3x

namespace PatientPriorityQueuex

/-- The row that `to_string` writes for an entry: the arrival number
right-aligned in width 7, two tab characters, the priority name left-aligned
in width 13, the name left-aligned in width 16. -/
def listingRow (e : Patient) : List Char :=
  padRightAligned 7 (showInt e.arrivalTime) ++ ['\t'] ++ ['\t'] ++
    padLeftAligned 13 (priorityName e.priorityCode) ++ padLeftAligned 16 e.name

end PatientPriorityQueuex

namespace PatientPriorityQueuex

/-- The queues built from the empty queue by `add` calls alone, with
arbitrary entries. -/
inductive BuiltByAdd : PatientPriorityQueuex → Prop
  | init : BuiltByAdd empty
  | add (q q1 : PatientPriorityQueuex) (patient : Patient) :
      BuiltByAdd q → q.add patient = some q1 → BuiltByAdd q1

end PatientPriorityQueuex

/-! ## Permutation lemmas for the sift operations -/

namespace PatientPriorityQueuex

theorem set_cons_perm (x y : Patient) :
    ∀ (xs : List Patient) (b : Nat), xs[b]? = some y → (y :: xs.set b x).Perm (x :: xs)
  | [], b, h => by simp at h
  | z :: zs, 0, h => by
    simp at h
    subst h
    simp [List.set]
    exact List.Perm.swap _ _ _
  | z :: zs, b + 1, h => by
    simp at h
    have ih := set_cons_perm x y zs b h
    simp only [List.set]
    exact (List.Perm.swap z y _).trans ((ih.cons z).trans (List.Perm.swap x z _))

theorem swap_set_perm :
    ∀ (data : List Patient) (a b : Nat) (x y : Patient),
      data[a]? = some x → data[b]? = some y → ((data.set a y).set b x).Perm data
  | [], a, b, x, y, ha, _ => by simp at ha
  | z :: zs, 0, 0, x, y, ha, hb => by
    simp at ha hb
    subst ha
    subst hb
    simp
  | z :: zs, 0, b + 1, x, y, ha, hb => by
    simp at ha hb
    subst ha
    simp only [List.set]
    exact set_cons_perm z y zs b hb
  | z :: zs, a + 1, 0, x, y, ha, hb => by
    simp at ha hb
    subst hb
    simp only [List.set]
    exact set_cons_perm z x zs a ha
  | z :: zs, a + 1, b + 1, x, y, ha, hb => by
    simp at ha hb
    simp only [List.set]
    exact (swap_set_perm zs a b x y ha hb).cons z

theorem swapAt_eq_some (data : List Patient) (a b : Nat) (ha : a < data.length)
    (hb : b < data.length) :
    swapAt data a b = some ((data.set a data[b]).set b data[a]) := by
  simp [swapAt, List.getElem?_eq_getElem ha, List.getElem?_eq_getElem hb]

theorem swapAt_perm {data data1 : List Patient} {a b : Nat}
    (h : swapAt data a b = some data1) : data1.Perm data := by
  unfold swapAt at h
  cases ha : data[a]? with
  | none => simp [ha] at h
  | some x =>
    cases hb : data[b]? with
    | none => simp [ha, hb] at h
    | some y =>
      simp [ha, hb] at h
      subst h
      exact swap_set_perm data a b x y ha hb

theorem getParent_lt {index : Nat} (h : index ≠ 0) : getParent index < index := by
  unfold getParent
  omega

theorem siftUpFuel_some :
    ∀ (fuel : Nat) (data : List Patient) (index : Nat),
      index < fuel → index < data.length →
        ∃ r, siftUpFuel fuel data index = some r ∧ r.Perm data
  | 0, _, _, h, _ => by omega
  | fuel + 1, data, index, hf, hlen => by
    unfold siftUpFuel
    by_cases h0 : index = 0
    · simp [h0]
    · have hp := getParent_lt h0
      have hpl : getParent index < data.length := by omega
      simp only [ne_eq, h0, not_false_eq_true, if_true, List.getElem?_eq_getElem hpl,
        List.getElem?_eq_getElem hlen]
      by_cases hgt : data[getParent index].gt data[index] = true
      · simp only [hgt, if_true, swapAt_eq_some data _ _ hpl hlen]
        have hperm := swapAt_perm (swapAt_eq_some data _ _ hpl hlen)
        obtain ⟨r, hr, hrp⟩ := siftUpFuel_some fuel _ (getParent index) (by omega)
          (by rw [hperm.length_eq]; exact hpl)
        exact ⟨r, hr, hrp.trans hperm⟩
      · simp [hgt]

theorem siftUp_some (data : List Patient) (index : Nat) (h : index < data.length) :
    ∃ r, siftUp data index = some r ∧ r.Perm data :=
  siftUpFuel_some (index + 1) data index (by omega) h

theorem siftDownFuel_some :
    ∀ (fuel : Nat) (data : List Patient) (index : Nat),
      0 < fuel → data.length < fuel + index →
        ∃ r, siftDownFuel fuel data index = some r ∧ r.Perm data
  | 0, _, _, h, _ => by omega
  | fuel + 1, data, index, _, hlen => by
    unfold siftDownFuel
    simp only [getLeftChild, getRightChild]
    have step : ∀ maxIdx, maxIdx < data.length → index < maxIdx → index < data.length →
        ∃ r, (match data[index]?, data[maxIdx]? with
          | some x, some m =>
            if x.lt m then
              match swapAt data maxIdx index with
              | some data1 => siftDownFuel fuel data1 maxIdx
              | none => none
            else some data
          | _, _ => none) = some r ∧ r.Perm data := by
      intro maxIdx hm him hi
      simp only [List.getElem?_eq_getElem hi, List.getElem?_eq_getElem hm]
      by_cases hlt : data[index].lt data[maxIdx] = true
      · simp only [hlt, if_true, swapAt_eq_some data _ _ hm hi]
        have hperm := swapAt_perm (swapAt_eq_some data _ _ hm hi)
        obtain ⟨r, hr, hrp⟩ := siftDownFuel_some fuel _ maxIdx (by omega)
          (by rw [hperm.length_eq]; omega)
        exact ⟨r, hr, hrp.trans hperm⟩
      · simp [hlt]
    by_cases hr : 2 * index + 2 ≥ data.length
    · by_cases hl : 2 * index + 1 ≥ data.length
      · simp [hr, hl]
      · simp only [hr, hl, if_true, if_false]
        exact step _ (by omega) (by omega) (by omega)
    · have hr1 : 2 * index + 2 < data.length := by omega
      have hl1 : 2 * index + 1 < data.length := by omega
      simp only [hr, if_false, List.getElem?_eq_getElem hr1, List.getElem?_eq_getElem hl1]
      by_cases hgt : data[2 * index + 1].gt data[2 * index + 2] = true
      · simp only [hgt, if_true]
        exact step _ (by omega) (by omega) (by omega)
      · simp only [hgt, if_false]
        exact step _ (by omega) (by omega) (by omega)

theorem siftDown_some (data : List Patient) (index : Nat) :
    ∃ r, siftDown data index = some r ∧ r.Perm data :=
  siftDownFuel_some (data.length + 1) data index (by omega) (by omega)

end PatientPriorityQueuex

/-! ## The effect of `add` and `remove` on the entries -/

namespace PatientPriorityQueuex

theorem add_some (q : PatientPriorityQueuex) (p : Patient)
    (hwf : q.heapSize = q.data.length) :
    ∃ q1, q.add p = some q1 ∧ q1.data.Perm (q.data ++ [p]) ∧
      q1.heapSize = q.heapSize + 1 ∧ q1.heapSize = q1.data.length := by
  obtain ⟨r, hr, hperm⟩ := siftUp_some (q.data ++ [p]) q.heapSize (by simp [hwf])
  refine ⟨⟨r, q.heapSize + 1⟩, ?_, hperm, rfl, ?_⟩
  · simp [add, hr]
  · simp [hperm.length_eq, hwf]

theorem add_eq_some {q q1 : PatientPriorityQueuex} {p : Patient}
    (hwf : q.heapSize = q.data.length) (h : q.add p = some q1) :
    q1.data.Perm (q.data ++ [p]) ∧ q1.heapSize = q.heapSize + 1 ∧
      q1.heapSize = q1.data.length := by
  obtain ⟨q2, h2, hp⟩ := add_some q p hwf
  rw [h2] at h
  cases h
  exact hp

theorem getElem?_length_append (pre suf : List Patient) (e : Patient) :
    (pre ++ e :: suf)[pre.length]? = some e := by
  rw [List.getElem?_append_right (le_refl _)]
  simp

theorem set_length_append (pre suf : List Patient) (e x : Patient) :
    (pre ++ e :: suf).set pre.length x = pre ++ x :: suf := by
  simp

theorem removeLoop_append (root : Patient) :
    ∀ (suf pre : List Patient),
      (pre ++ suf)[0]? = some root →
        removeLoop suf.length pre.length (pre ++ suf) =
          some (pre ++ suf.map (renumber root.arrivalTime))
  | [], pre, _ => by simp [removeLoop]
  | e :: suf, pre, h0 => by
    simp only [List.length_cons]
    unfold removeLoop
    simp only [getElem?_length_append, h0, set_length_append]
    have hstep : ∀ x : Patient, (pre ++ x :: suf)[0]? = some root →
        removeLoop suf.length (pre.length + 1) (pre ++ x :: suf) =
          some (pre ++ x :: suf.map (renumber root.arrivalTime)) := by
      intro x hx
      have := removeLoop_append root suf (pre ++ [x]) (by simpa using hx)
      simpa using this
    by_cases hgt : e.getArrivalTime > root.getArrivalTime
    · have hpre : pre ≠ [] := by
        intro hp
        subst hp
        simp at h0
        subst h0
        exact lt_irrefl _ hgt
      simp only [hgt, if_true]
      rw [hstep]
      · have hgt1 : e.getArrivalTime > root.arrivalTime := hgt
        simp only [List.map_cons, renumber, hgt1, if_true]
      · cases pre with
        | nil => exact absurd rfl hpre
        | cons a as => simpa using h0
    · simp only [hgt, if_false]
      rw [hstep e h0]
      have hgt1 : ¬ e.getArrivalTime > root.arrivalTime := hgt
      simp only [List.map_cons, renumber, hgt1, if_false]

theorem removeLoop_eq (root : Patient) (rest : List Patient) :
    removeLoop (root :: rest).length 0 (root :: rest) =
      some (root :: rest.map (renumber root.arrivalTime)) := by
  have h := removeLoop_append root (root :: rest) [] (by simp)
  simp only [List.nil_append, List.length_nil, List.map_cons] at h
  rw [h]
  simp [renumber, Patient.getArrivalTime]

theorem set_zero_dropLast_perm (x last : Patient) :
    ∀ (t : List Patient), (x :: t).getLast? = some last →
      (((x :: t).set 0 last).dropLast).Perm t
  | [], _ => by simp
  | y :: t, h => by
    have hne : y :: t ≠ [] := by simp
    have hl : (y :: t).getLast? = some last := by simpa [List.getLast?_cons_cons] using h
    have hlast : (y :: t).getLast hne = last := by
      rw [List.getLast?_eq_getLast _ hne] at hl
      exact Option.some.inj hl
    have hsplit := List.dropLast_append_getLast hne
    rw [hlast] at hsplit
    simp only [List.set_cons_zero]
    rw [List.dropLast_cons_of_ne_nil hne]
    conv_rhs => rw [← hsplit]
    exact (List.perm_append_singleton _ _).symm

theorem remove_some (q : PatientPriorityQueuex) (root : Patient) (rest : List Patient)
    (hwf : q.heapSize = q.data.length) (hd : q.data = root :: rest) :
    ∃ q1, q.remove = some q1 ∧ q1.data.Perm (rest.map (renumber root.arrivalTime)) ∧
      q1.heapSize = q.heapSize - 1 ∧ q1.heapSize = q1.data.length := by
  have hsz : q.heapSize = (root :: rest).length := by rw [hwf, hd]
  have hloop := removeLoop_eq root rest
  obtain ⟨last, hlast⟩ : ∃ last,
      (root :: rest.map (renumber root.arrivalTime)).getLast? = some last := by
    cases h : (root :: rest.map (renumber root.arrivalTime)).getLast? with
    | none => simp at h
    | some x => exact ⟨x, rfl⟩
  have hget : (root :: rest.map (renumber root.arrivalTime))[q.heapSize - 1]? = some last := by
    rw [← hlast, List.getLast?_eq_getElem?, hsz]
    simp
  have hperm := set_zero_dropLast_perm root last _ hlast
  have hlen2 : (((root :: rest.map (renumber root.arrivalTime)).set 0 last).dropLast).length =
      q.heapSize - 1 := by
    rw [hperm.length_eq, hsz]
    simp
  have hne : q.heapSize ≠ 0 := by rw [hsz]; simp
  unfold remove
  simp only [hne, if_false, hd]
  rw [← hsz] at hloop
  simp only [hloop, hget]
  by_cases hbig : q.heapSize - 1 > 1
  · obtain ⟨r, hr, hrp⟩ := siftDown_some
      (((root :: rest.map (renumber root.arrivalTime)).set 0 last).dropLast) 0
    refine ⟨⟨r, q.heapSize - 1⟩, ?_, hrp.trans hperm, rfl, ?_⟩
    · simp only [hbig, if_true, hr]
    · simp only [hrp.length_eq, hlen2]
  · refine ⟨⟨_, q.heapSize - 1⟩, ?_, hperm, rfl, ?_⟩
    · simp only [hbig, if_false]
    · simp only [hlen2]

theorem remove_eq_some {q q1 : PatientPriorityQueuex}
    (hwf : q.heapSize = q.data.length) (h : q.remove = some q1) :
    ∃ root rest, q.data = root :: rest ∧
      q1.data.Perm (rest.map (renumber root.arrivalTime)) ∧
      q1.heapSize = q.heapSize - 1 ∧ q1.heapSize = q1.data.length := by
  cases hd : q.data with
  | nil =>
    have : q.heapSize = 0 := by rw [hwf, hd]; rfl
    simp [remove, this] at h
  | cons root rest =>
    obtain ⟨q2, h2, hp⟩ := remove_some q root rest hwf hd
    rw [h2] at h
    cases h
    exact ⟨root, rest, rfl, hp⟩

theorem reachable_wf {q : PatientPriorityQueuex} (h : Reachable q) :
    q.heapSize = q.data.length := by
  induction h with
  | init => rfl
  | add q q1 pc name _ hadd ih => exact (add_eq_some ih hadd).2.2
  | remove q q1 _ hrem ih =>
    obtain ⟨_, _, _, _, _, h⟩ := remove_eq_some ih hrem
    exact h

end PatientPriorityQueuex

/-! ## Dense arrival numbers -/

namespace PatientPriorityQueuex

theorem map_arrivalTime_renumber (r : Int) (rest : List Patient) :
    (rest.map (renumber r)).map Patient.arrivalTime =
      (rest.map Patient.arrivalTime).map (fun a => if a > r then a - 1 else a) := by
  simp only [List.map_map]
  apply List.map_congr_left
  intro e _
  simp only [Function.comp, renumber, Patient.getArrivalTime, Patient.decrementArrival]
  split <;> rfl

theorem denseArrivals_add {q q1 : PatientPriorityQueuex} {priorityCode : Int}
    {name : List Char} (h : DenseArrivals q) (hadd : q.addNext priorityCode name = some q1) :
    DenseArrivals q1 := by
  obtain ⟨hwf, hnd, hrange⟩ := h
  obtain ⟨hperm, _, hwf1⟩ := add_eq_some hwf hadd
  have hp : (q1.data.map Patient.arrivalTime).Perm
      (q.data.map Patient.arrivalTime ++ [(q.data.length : Int) + 1]) := by
    have := hperm.map Patient.arrivalTime
    simpa [size, hwf] using this
  refine ⟨hwf1, ?_, ?_⟩
  · rw [hp.nodup_iff]
    rw [List.nodup_append]
    refine ⟨hnd, List.nodup_singleton _, ?_⟩
    intro a ha hb
    simp only [List.mem_singleton] at hb
    have := (hrange a ha).2
    omega
  · intro a ha
    have hlen : q1.data.length = q.data.length + 1 := by
      rw [hperm.length_eq]; simp
    rw [hlen]
    rcases List.mem_append.1 (hp.mem_iff.1 ha) with h1 | h1
    · have := hrange a h1
      push_cast
      omega
    · simp only [List.mem_singleton] at h1
      push_cast
      omega

theorem denseArrivals_remove {q q1 : PatientPriorityQueuex} (h : DenseArrivals q)
    (hrem : q.remove = some q1) : DenseArrivals q1 := by
  obtain ⟨hwf, hnd, hrange⟩ := h
  obtain ⟨root, rest, hd, hperm, _, hwf1⟩ := remove_eq_some hwf hrem
  rw [hd] at hnd hrange
  simp only [List.map_cons, List.nodup_cons, List.length_cons] at hnd hrange
  obtain ⟨hnotin, hnd⟩ := hnd
  have hp : (q1.data.map Patient.arrivalTime).Perm
      ((rest.map Patient.arrivalTime).map
        (fun a => if a > root.arrivalTime then a - 1 else a)) := by
    rw [← map_arrivalTime_renumber]
    exact hperm.map _
  have hroot := hrange root.arrivalTime (List.mem_cons_self _ _)
  have hlen : q1.data.length = rest.length := by
    rw [hperm.length_eq]; simp
  refine ⟨hwf1, ?_, ?_⟩
  · rw [hp.nodup_iff]
    apply List.Nodup.map_on _ hnd
    intro x hx y hy hxy
    have hx1 : x ≠ root.arrivalTime := fun e => hnotin (e ▸ hx)
    have hy1 : y ≠ root.arrivalTime := fun e => hnotin (e ▸ hy)
    simp only at hxy
    split at hxy <;> split at hxy <;> omega
  · intro a ha
    rw [hlen]
    obtain ⟨x, hx, rfl⟩ := List.mem_map.1 (hp.mem_iff.1 ha)
    have hx1 : x ≠ root.arrivalTime := fun e => hnotin (e ▸ hx)
    have hx2 := hrange x (List.mem_cons_of_mem _ hx)
    push_cast at hx2 hroot
    split <;> omega

theorem reachable_denseArrivals {q : PatientPriorityQueuex} (h : Reachable q) :
    DenseArrivals q := by
  induction h with
  | init => exact ⟨rfl, by simp [empty], by simp [empty]⟩
  | add q q1 pc name _ hadd ih => exact denseArrivals_add ih hadd
  | remove q q1 _ hrem ih => exact denseArrivals_remove ih hrem

theorem perm_range_of_nodup (l : List Int) (hnd : l.Nodup)
    (hrange : ∀ a ∈ l, 1 ≤ a ∧ a ≤ (l.length : Int)) :
    l.Perm ((List.range' 1 l.length).map Int.ofNat) := by
  apply List.Subperm.perm_of_length_le
  · apply List.subperm_of_subset hnd
    intro a ha
    have := hrange a ha
    rw [List.mem_map]
    refine ⟨a.toNat, ?_, ?_⟩
    · rw [List.mem_range'_1]
      omega
    · simp only [Int.ofNat_eq_coe]
      omega
  · simp

end PatientPriorityQueuex

/-! ## The search of `change` -/

namespace PatientPriorityQueuex

theorem changeLoop_not_found (arrivalID newPriority : Int) :
    ∀ (remaining i : Nat) (data : List Patient),
      i + remaining ≤ data.length → (∀ e ∈ data, e.arrivalTime ≠ arrivalID) →
        changeLoop arrivalID newPriority remaining i data =
          some (data, "Patient with given id was not found.".toList)
  | 0, _, _, _, _ => rfl
  | remaining + 1, i, data, hlen, hno => by
    have hi : i < data.length := by omega
    unfold changeLoop
    simp only [List.getElem?_eq_getElem hi, Patient.getArrivalTime]
    have hne : data[i].arrivalTime ≠ arrivalID := hno _ (List.getElem_mem _)
    simp only [hne, if_false]
    exact changeLoop_not_found arrivalID newPriority remaining (i + 1) data (by omega) hno

theorem changeLoop_found (arrivalID newPriority : Int) (i : Nat) (e : Patient)
    (pname : List Char) (hname : getPriorityString newPriority = some pname)
    (he : e.arrivalTime = arrivalID) :
    ∀ (remaining i0 : Nat) (data : List Patient),
      i0 ≤ i → i < i0 + remaining → data[i]? = some e →
      (∀ j x, i0 ≤ j → j < i → data[j]? = some x → x.arrivalTime ≠ arrivalID) →
        changeLoop arrivalID newPriority remaining i0 data =
          some (data.set i ⟨e.name, newPriority, e.priorityCode⟩,
            "Changed patient ".toList ++ e.name ++ "'s priority to ".toList ++ pname)
  | 0, _, _, h1, h2, _, _ => by omega
  | remaining + 1, i0, data, h1, h2, hget, hbefore => by
    have hi : i < data.length := by
      rcases Nat.lt_or_ge i data.length with h | h
      · exact h
      · rw [List.getElem?_eq_none h] at hget
        cases hget
    have hi0 : i0 < data.length := by omega
    unfold changeLoop
    by_cases heq : i0 = i
    · subst heq
      simp only [hget, Patient.getArrivalTime, he, if_true, Patient.getName,
        Patient.getPriorityCode]
      rw [List.getElem?_set_self hi]
      simp only [hname]
    · simp only [List.getElem?_eq_getElem hi0, Patient.getArrivalTime]
      have hne : data[i0].arrivalTime ≠ arrivalID :=
        hbefore i0 _ (le_refl _) (by omega) (List.getElem?_eq_getElem hi0)
      simp only [hne, if_false]
      exact changeLoop_found arrivalID newPriority i e pname hname he remaining (i0 + 1) data
        (by omega) (by omega) hget (fun j x hj1 hj2 => hbefore j x (by omega) hj2)

theorem getPriorityString_some (priority : Int) (h1 : 1 ≤ priority) (h4 : priority ≤ 4) :
    ∃ pname, getPriorityString priority = some pname := by
  have : priority = 1 ∨ priority = 2 ∨ priority = 3 ∨ priority = 4 := by omega
  rcases this with h | h | h | h <;> subst h <;> exact ⟨_, rfl⟩

end PatientPriorityQueuex

/-! ## The scenarios of the specification, evaluated -/

namespace PatientPriorityQueuex

theorem reachable_A :
    Reachable ⟨[⟨"A".toList, 1, 1⟩], 1⟩ :=
  Reachable.add empty _ 1 "A".toList Reachable.init (by decide)

theorem reachable_AB :
    Reachable ⟨[⟨"A".toList, 1, 1⟩, ⟨"B".toList, 4, 2⟩], 2⟩ :=
  Reachable.add _ _ 4 "B".toList reachable_A (by decide)

theorem reachable_ABC :
    Reachable ⟨[⟨"A".toList, 1, 1⟩, ⟨"B".toList, 4, 2⟩, ⟨"C".toList, 2, 3⟩], 3⟩ :=
  Reachable.add _ _ 2 "C".toList reachable_AB (by decide)

theorem reachable_ABC_removed :
    Reachable ⟨[⟨"B".toList, 4, 1⟩, ⟨"C".toList, 2, 2⟩], 2⟩ :=
  Reachable.remove _ _ reachable_ABC (by decide)

/-- C1, evaluated on the scenario of the specification: after
add(immediate,"A"), add(minimal,"B"), add(emergency,"C") the root is "A"; one
`remove` then leaves a reachable queue of size 2 whose root is "B" of class 4
although "C" of class 2 is waiting, so the root is not of the smallest class
present. -/
theorem C1_root_class_after_remove :
    (PatientPriorityQueuex.mk [⟨"A".toList, 1, 1⟩, ⟨"B".toList, 4, 2⟩, ⟨"C".toList, 2, 3⟩] 3).peek
        = some "A".toList ∧
      (PatientPriorityQueuex.mk [⟨"A".toList, 1, 1⟩, ⟨"B".toList, 4, 2⟩, ⟨"C".toList, 2, 3⟩] 3).remove
        = some ⟨[⟨"B".toList, 4, 1⟩, ⟨"C".toList, 2, 2⟩], 2⟩ ∧
      Reachable ⟨[⟨"B".toList, 4, 1⟩, ⟨"C".toList, 2, 2⟩], 2⟩ ∧
      (PatientPriorityQueuex.mk [⟨"B".toList, 4, 1⟩, ⟨"C".toList, 2, 2⟩] 2).peek
        = some "B".toList ∧
      (PatientPriorityQueuex.mk [⟨"B".toList, 4, 1⟩, ⟨"C".toList, 2, 2⟩] 2).size = 2 ∧
      ¬ (∀ q : PatientPriorityQueuex, Reachable q → ∀ r, q.data[0]? = some r →
          ∀ e ∈ q.data, ¬ e.priorityCode < r.priorityCode) := by
  refine ⟨by decide, by decide, reachable_ABC_removed, by decide, rfl, ?_⟩
  intro h
  exact h _ reachable_ABC_removed ⟨"B".toList, 4, 1⟩ rfl ⟨"C".toList, 2, 2⟩ (by simp) (by decide)

/-- C2, evaluated on the same scenario: the queue reached by
add(immediate,"A"), add(minimal,"B"), add(emergency,"C"), remove() is
["B" class 4, "C" class 2]; the child at index 1 ranks above its parent at
index 0, so the heap invariant of the specification does not hold after every
sequence of add and remove calls. -/
theorem C2_heap_invariant_broken_by_remove :
    Reachable ⟨[⟨"B".toList, 4, 1⟩, ⟨"C".toList, 2, 2⟩], 2⟩ ∧
      ¬ SpecHeapInvariant [⟨"B".toList, 4, 1⟩, ⟨"C".toList, 2, 2⟩] ∧
      ¬ (∀ q : PatientPriorityQueuex, Reachable q → SpecHeapInvariant q.data) := by
  have hbad : ¬ SpecHeapInvariant [⟨"B".toList, 4, 1⟩, ⟨"C".toList, 2, 2⟩] := by
    intro h
    exact h 0 1 ⟨"B".toList, 4, 1⟩ ⟨"C".toList, 2, 2⟩ (Or.inl rfl) rfl rfl
      (Or.inl (by decide))
  exact ⟨reachable_ABC_removed, hbad, fun h => hbad (h _ reachable_ABC_removed)⟩

theorem reachable_A_B :
    Reachable ⟨[⟨"A".toList, 1, 1⟩, ⟨"B".toList, 1, 2⟩], 2⟩ :=
  Reachable.add _ _ 1 "B".toList reachable_A (by decide)

theorem reachable_A_B_C :
    Reachable ⟨[⟨"A".toList, 1, 1⟩, ⟨"B".toList, 1, 2⟩, ⟨"C".toList, 1, 3⟩], 3⟩ :=
  Reachable.add _ _ 1 "C".toList reachable_A_B (by decide)

theorem reachable_four_immediate :
    Reachable ⟨[⟨"A".toList, 1, 1⟩, ⟨"B".toList, 1, 2⟩, ⟨"C".toList, 1, 3⟩,
      ⟨"D".toList, 1, 4⟩], 4⟩ :=
  Reachable.add _ _ 1 "D".toList reachable_A_B_C (by decide)

theorem reachable_four_immediate_removed :
    Reachable ⟨[⟨"C".toList, 1, 2⟩, ⟨"B".toList, 1, 1⟩, ⟨"D".toList, 1, 3⟩], 3⟩ :=
  Reachable.remove _ _ reachable_four_immediate (by decide)

/-- C4, evaluated: four add(immediate, ...) calls for "A", "B", "C", "D"
followed by one `remove` give the queue ["C" arrival 2, "B" arrival 1,
"D" arrival 3]; all entries share class 1, yet the root "C" is not the
earliest arrival, "B" with arrival number 1 is. -/
theorem C4_root_not_earliest_after_remove :
    (PatientPriorityQueuex.mk [⟨"A".toList, 1, 1⟩, ⟨"B".toList, 1, 2⟩, ⟨"C".toList, 1, 3⟩,
        ⟨"D".toList, 1, 4⟩] 4).remove
        = some ⟨[⟨"C".toList, 1, 2⟩, ⟨"B".toList, 1, 1⟩, ⟨"D".toList, 1, 3⟩], 3⟩ ∧
      Reachable ⟨[⟨"C".toList, 1, 2⟩, ⟨"B".toList, 1, 1⟩, ⟨"D".toList, 1, 3⟩], 3⟩ ∧
      (PatientPriorityQueuex.mk [⟨"C".toList, 1, 2⟩, ⟨"B".toList, 1, 1⟩,
        ⟨"D".toList, 1, 3⟩] 3).peek = some "C".toList ∧
      ¬ (∀ q : PatientPriorityQueuex, Reachable q →
          (∀ e ∈ q.data, ∀ e1 ∈ q.data, e.priorityCode = e1.priorityCode) →
          ∀ r, q.data[0]? = some r → ∀ e ∈ q.data, r.arrivalTime ≤ e.arrivalTime) := by
  have hreach := reachable_four_immediate_removed
  refine ⟨by decide, hreach, by decide, ?_⟩
  intro h
  have := h _ hreach (by decide) ⟨"C".toList, 1, 2⟩ rfl ⟨"B".toList, 1, 1⟩ (by simp)
  exact absurd this (by decide)

/-- C7, evaluated: in the queue built by add(immediate,"A"),
add(minimal,"B"), the call change(2, 3) replaces "B" (class 4, arrival 2) by
an entry of class 3 whose arrival number is 4, the old class: the arrival
number of the patient is not left as it was. -/
theorem C7_change_overwrites_arrival :
    Reachable ⟨[⟨"A".toList, 1, 1⟩, ⟨"B".toList, 4, 2⟩], 2⟩ ∧
      (PatientPriorityQueuex.mk [⟨"A".toList, 1, 1⟩, ⟨"B".toList, 4, 2⟩] 2).change 2 3
        = some (⟨[⟨"A".toList, 1, 1⟩, ⟨"B".toList, 3, 4⟩], 2⟩,
            "Changed patient B's priority to urgent".toList) := by
  exact ⟨reachable_AB, by decide⟩

end PatientPriorityQueuex

/-! ## Renumbering, dense arrival numbers, and `change` -/

namespace PatientPriorityQueuex

/-- C5: on a non-empty queue with root `r`, `remove` returns a queue that is
one entry smaller and whose entries are, as a multiset, the original entries
with `r` deleted and every other entry kept with its name and class, its
arrival number reduced by one when it was larger than that of `r` and
unchanged otherwise. -/
theorem C5_remove_renumbers_entries (q : PatientPriorityQueuex) (r : Patient)
    (hwf : q.heapSize = q.data.length) (hroot : q.data[0]? = some r) :
    ∃ q1, q.remove = some q1 ∧ q1.size + 1 = q.size ∧ q1.data.length + 1 = q.data.length ∧
      (q1.data : Multiset Patient) =
        ((q.data : Multiset Patient).erase r).map (fun e =>
          if e.arrivalTime > r.arrivalTime then
            ⟨e.name, e.priorityCode, e.arrivalTime - 1⟩
          else e) := by
  cases hd : q.data with
  | nil => rw [hd] at hroot; cases hroot
  | cons root rest =>
    rw [hd] at hroot
    simp only [List.getElem?_cons_zero, Option.some.injEq] at hroot
    subst hroot
    obtain ⟨q1, h1, hperm, hsz, hwf1⟩ := remove_some q root rest hwf hd
    have hlen : q1.data.length = rest.length := by rw [hperm.length_eq]; simp
    refine ⟨q1, h1, ?_, ?_, ?_⟩
    · simp only [size, hsz, hwf, hd, List.length_cons]
      omega
    · simp [hlen]
    · rw [Multiset.coe_erase, List.erase_cons_head, Multiset.map_coe, Multiset.coe_eq_coe]
      exact hperm

/-- A use of C5 on the queue built by add(immediate,"A"), add(minimal,"B"),
add(emergency,"C"). -/
theorem C5_remove_renumbers_entries_witness :
    (PatientPriorityQueuex.mk [⟨"A".toList, 1, 1⟩, ⟨"B".toList, 4, 2⟩,
        ⟨"C".toList, 2, 3⟩] 3).heapSize = 3 ∧
    ∃ q1, (PatientPriorityQueuex.mk [⟨"A".toList, 1, 1⟩, ⟨"B".toList, 4, 2⟩,
        ⟨"C".toList, 2, 3⟩] 3).remove = some q1 ∧
      q1.size + 1 = 3 ∧ q1.data.length + 1 = 3 ∧
      (q1.data : Multiset Patient) =
        (((([⟨"A".toList, 1, 1⟩, ⟨"B".toList, 4, 2⟩, ⟨"C".toList, 2, 3⟩] : List Patient) :
            Multiset Patient)).erase ⟨"A".toList, 1, 1⟩).map (fun e =>
          if e.arrivalTime > 1 then ⟨e.name, e.priorityCode, e.arrivalTime - 1⟩ else e) :=
  ⟨rfl, C5_remove_renumbers_entries
    ⟨[⟨"A".toList, 1, 1⟩, ⟨"B".toList, 4, 2⟩, ⟨"C".toList, 2, 3⟩], 3⟩ ⟨"A".toList, 1, 1⟩ rfl rfl⟩

/-- C6: in every queue reached from the empty queue by add calls with
arrival number `size() + 1` and by remove calls, the arrival numbers of the
`n` entries are exactly the numbers `1..n`, each occurring once. -/
theorem C6_arrival_numbers_dense (q : PatientPriorityQueuex) (h : Reachable q) :
    q.size = q.data.length ∧
      (q.data.map Patient.getArrivalTime).Perm ((List.range' 1 q.size).map Int.ofNat) := by
  obtain ⟨hwf, hnd, hrange⟩ := reachable_denseArrivals h
  refine ⟨hwf, ?_⟩
  have := perm_range_of_nodup (q.data.map Patient.arrivalTime) hnd (by simpa using hrange)
  simpa [size, hwf] using this

/-- A use of C6 on the queue reached by four add(immediate, ...) calls and one
remove. -/
theorem C6_arrival_numbers_dense_witness :
    Reachable ⟨[⟨"C".toList, 1, 2⟩, ⟨"B".toList, 1, 1⟩, ⟨"D".toList, 1, 3⟩], 3⟩ ∧
      ([⟨"C".toList, 1, 2⟩, ⟨"B".toList, 1, 1⟩, ⟨"D".toList, 1, 3⟩].map
        Patient.getArrivalTime).Perm ((List.range' 1 3).map Int.ofNat) :=
  ⟨reachable_four_immediate_removed,
    (C6_arrival_numbers_dense _ reachable_four_immediate_removed).2⟩

/-- C8: when `i` is the smallest index whose entry has arrival number
`arrivalID` and `newPriority` is in `1..4`, `change` returns the same vector
with only slot `i` replaced by the entry (old name, `newPriority` as priority
code, old priority code as arrival time), the same `heapSize`, and the message
"Changed patient <name>'s priority to <name of newPriority>". -/
theorem C8_change_replaces_first_match (q : PatientPriorityQueuex)
    (arrivalID newPriority : Int) (i : Nat) (e : Patient)
    (hwf : q.heapSize = q.data.length) (h1 : 1 ≤ newPriority) (h4 : newPriority ≤ 4)
    (hget : q.data[i]? = some e) (he : e.getArrivalTime = arrivalID)
    (hfirst : ∀ j x, j < i → q.data[j]? = some x → x.getArrivalTime ≠ arrivalID) :
    ∃ pname, getPriorityString newPriority = some pname ∧
      q.change arrivalID newPriority =
        some (⟨q.data.set i ⟨e.getName, newPriority, e.getPriorityCode⟩, q.heapSize⟩,
          "Changed patient ".toList ++ e.getName ++ "'s priority to ".toList ++ pname) ∧
      (q.data.set i ⟨e.getName, newPriority, e.getPriorityCode⟩).length = q.data.length ∧
      ∀ j, j ≠ i →
        (q.data.set i ⟨e.getName, newPriority, e.getPriorityCode⟩)[j]? = q.data[j]? := by
  obtain ⟨pname, hname⟩ := getPriorityString_some newPriority h1 h4
  have hi : i < q.data.length := by
    rcases Nat.lt_or_ge i q.data.length with h | h
    · exact h
    · rw [List.getElem?_eq_none h] at hget
      cases hget
  refine ⟨pname, hname, ?_, by simp, ?_⟩
  · have := changeLoop_found arrivalID newPriority i e pname hname he q.heapSize 0 q.data
      (Nat.zero_le _) (by omega) hget (fun j x _ hj hx => hfirst j x hj hx)
    simp only [change, this, Patient.getName, Patient.getPriorityCode]
  · intro j hj
    rw [List.getElem?_set_ne (Ne.symm hj)]

/-- A use of C8: change(2, 1) on the queue built by add(immediate,"A"),
add(minimal,"B"), add(emergency,"C"). -/
theorem C8_change_replaces_first_match_witness :
    ∃ pname, getPriorityString 1 = some pname ∧
      (PatientPriorityQueuex.mk [⟨"A".toList, 1, 1⟩, ⟨"B".toList, 4, 2⟩,
          ⟨"C".toList, 2, 3⟩] 3).change 2 1 =
        some (⟨[⟨"A".toList, 1, 1⟩, ⟨"B".toList, 4, 2⟩, ⟨"C".toList, 2, 3⟩].set 1
            ⟨"B".toList, 1, 4⟩, 3⟩,
          "Changed patient ".toList ++ "B".toList ++ "'s priority to ".toList ++ pname) ∧
      ([⟨"A".toList, 1, 1⟩, ⟨"B".toList, 4, 2⟩, ⟨"C".toList, 2, 3⟩].set 1
            (⟨"B".toList, 1, 4⟩ : Patient)).length = 3 ∧
      ∀ j, j ≠ 1 →
        ([⟨"A".toList, 1, 1⟩, ⟨"B".toList, 4, 2⟩, ⟨"C".toList, 2, 3⟩].set 1
            (⟨"B".toList, 1, 4⟩ : Patient))[j]? =
          [⟨"A".toList, 1, 1⟩, ⟨"B".toList, 4, 2⟩, ⟨"C".toList, 2, 3⟩][j]? :=
  C8_change_replaces_first_match
    ⟨[⟨"A".toList, 1, 1⟩, ⟨"B".toList, 4, 2⟩, ⟨"C".toList, 2, 3⟩], 3⟩ 2 1 1
    ⟨"B".toList, 4, 2⟩ rfl (by decide) (by decide) rfl rfl
    (fun j x hj hx => by
      have hj0 : j = 0 := by omega
      subst hj0
      cases hx
      decide)

/-- C9: when no entry has arrival number `arrivalID`, `change` returns the
message "Patient with given id was not found." and the queue is the same:
same `heapSize` and the same entries at the same positions. -/
theorem C9_change_not_found (q : PatientPriorityQueuex) (arrivalID newPriority : Int)
    (hwf : q.heapSize = q.data.length)
    (hno : ∀ e ∈ q.data, e.getArrivalTime ≠ arrivalID) :
    q.change arrivalID newPriority =
      some (q, "Patient with given id was not found.".toList) := by
  have := changeLoop_not_found arrivalID newPriority q.heapSize 0 q.data (by omega) hno
  simp only [change, this]

/-- A use of C9: change(7, 2) on the queue built by add(immediate,"A"),
add(minimal,"B"). -/
theorem C9_change_not_found_witness :
    (PatientPriorityQueuex.mk [⟨"A".toList, 1, 1⟩, ⟨"B".toList, 4, 2⟩] 2).change 7 2 =
      some (⟨[⟨"A".toList, 1, 1⟩, ⟨"B".toList, 4, 2⟩], 2⟩,
        "Patient with given id was not found.".toList) :=
  C9_change_not_found ⟨[⟨"A".toList, 1, 1⟩, ⟨"B".toList, 4, 2⟩], 2⟩ 7 2 rfl (by decide)

end PatientPriorityQueuex

/-! ## The heap property kept by `siftUp` -/

namespace PatientPriorityQueuex

theorem gt_eq_true_iff (a b : Patient) :
    a.gt b = true ↔ b.priorityCode < a.priorityCode ∨
      (a.priorityCode = b.priorityCode ∧ b.arrivalTime < a.arrivalTime) := by
  unfold Patient.gt
  by_cases h1 : a.priorityCode > b.priorityCode
  · simp [h1]
  · by_cases h2 : a.priorityCode = b.priorityCode
    · simp [h2]
    · simp only [h1, h2, if_false]
      constructor
      · intro h; cases h
      · intro h; simp at h

theorem gt_eq_false_iff (a b : Patient) :
    a.gt b = false ↔ a.priorityCode < b.priorityCode ∨
      (a.priorityCode = b.priorityCode ∧ a.arrivalTime ≤ b.arrivalTime) := by
  rw [← Bool.not_eq_true, gt_eq_true_iff]
  omega

theorem gt_false_trans {a b c : Patient} (h1 : a.gt b = false) (h2 : b.gt c = false) :
    a.gt c = false := by
  rw [gt_eq_false_iff] at *
  omega

theorem gt_false_of_gt {a b : Patient} (h : a.gt b = true) : b.gt a = false := by
  rw [gt_eq_true_iff] at h
  rw [gt_eq_false_iff]
  omega

theorem gt_self (a : Patient) : a.gt a = false := by
  rw [gt_eq_false_iff]
  omega

theorem swap_getElem? (data : List Patient) (a b : Nat) (x y : Patient)
    (ha : a < data.length) (hb : b < data.length) (hab : a ≠ b) (j : Nat) :
    ((data.set a y).set b x)[j]? =
      if j = b then some x else if j = a then some y else data[j]? := by
  by_cases hjb : j = b
  · subst hjb
    simp only [if_true]
    rw [List.getElem?_set_self (by simpa using hb)]
  · simp only [hjb, if_false]
    rw [List.getElem?_set_ne (Ne.symm hjb)]
    by_cases hja : j = a
    · subst hja
      simp only [if_true]
      rw [List.getElem?_set_self ha]
    · simp only [hja, if_false]
      rw [List.getElem?_set_ne (Ne.symm hja)]

theorem heapExcept_swap (data : List Patient) (k : Nat) (hk0 : k ≠ 0)
    (hk : k < data.length) (hpl : getParent k < data.length) (hex : HeapExcept data k)
    (hgt : data[getParent k].gt data[k] = true) :
    HeapExcept ((data.set (getParent k) data[k]).set k data[getParent k]) (getParent k) := by
  have hpk : getParent k < k := getParent_lt hk0
  obtain ⟨h1, h2⟩ := hex
  have hsw := swap_getElem? data (getParent k) k data[getParent k] data[k] hpl hk (by omega)
  have hxk : data[getParent k]? = some data[getParent k] := List.getElem?_eq_getElem hpl
  have hck : data[k]? = some data[k] := List.getElem?_eq_getElem hk
  constructor
  · intro j P C hj hjp hP hC
    rw [hsw] at hP hC
    by_cases hjk : j = k
    · subst hjk
      simp only [if_true, Option.some.injEq] at hC
      have : getParent j ≠ j := by omega
      simp only [this, if_false, if_true, Option.some.injEq] at hP
      subst hP
      subst hC
      exact gt_false_of_gt hgt
    · simp only [hjk, hjp, if_false] at hC
      by_cases hpj : getParent j = k
      · simp only [hpj, if_true, Option.some.injEq] at hP
        subst hP
        exact h2 j _ C hj hpj (by omega) hxk hC
      · simp only [hpj, if_false] at hP
        by_cases hpp : getParent j = getParent k
        · simp only [hpp, if_true, Option.some.injEq] at hP
          subst hP
          have hx : data[getParent k].gt C = false := h1 j _ C hj hjk (by rw [hpp]; exact hxk) hC
          exact gt_false_trans (gt_false_of_gt hgt) hx
        · simp only [hpp, if_false] at hP
          exact h1 j P C hj hjk hP hC
  · intro j G C hj hjp hp0 hG hC
    rw [hsw] at hG hC
    have hpp : getParent (getParent k) < getParent k := getParent_lt (by omega)
    have hg1 : getParent (getParent k) ≠ k := by omega
    have hg2 : getParent (getParent k) ≠ getParent k := by omega
    simp only [hg1, hg2, if_false] at hG
    have hGx : G.gt data[getParent k] = false :=
      h1 (getParent k) G _ hp0 (by omega) hG hxk
    by_cases hjk : j = k
    · subst hjk
      simp only [if_true, Option.some.injEq] at hC
      subst hC
      exact hGx
    · have hj2 : j ≠ getParent k := by
        have := getParent_lt (show j ≠ 0 by omega)
        omega
      simp only [hjk, hj2, if_false] at hC
      have hx : data[getParent k].gt C = false := h1 j _ C hj hjk (by rw [hjp]; exact hxk) hC
      exact gt_false_trans hGx hx

theorem siftUpFuel_minHeap :
    ∀ (fuel : Nat) (data : List Patient) (k : Nat),
      k < data.length → HeapExcept data k →
        ∀ r, siftUpFuel fuel data k = some r → MinHeap r
  | 0, _, _, _, _, r, h => by simp [siftUpFuel] at h
  | fuel + 1, data, k, hk, hex, r, h => by
    unfold siftUpFuel at h
    by_cases hk0 : k = 0
    · simp only [hk0, ne_eq, not_true_eq_false, if_false, Option.some.injEq] at h
      subst h
      intro j p c hj hp hc
      exact hex.1 j p c hj (by omega) hp hc
    · have hpk : getParent k < k := getParent_lt hk0
      have hpl : getParent k < data.length := by omega
      simp only [ne_eq, hk0, not_false_eq_true, if_true, List.getElem?_eq_getElem hpl,
        List.getElem?_eq_getElem hk] at h
      by_cases hgt : data[getParent k].gt data[k] = true
      · simp only [hgt, if_true, swapAt_eq_some data _ _ hpl hk] at h
        exact siftUpFuel_minHeap fuel _ (getParent k) (by simpa using hpl)
          (heapExcept_swap data k hk0 hk hpl hex hgt) r h
      · have hgt1 : data[getParent k].gt data[k] = false := by simpa using hgt
        simp only [hgt1, Bool.false_eq_true, if_false, Option.some.injEq] at h
        subst h
        intro j p c hj hp hc
        by_cases hjk : j = k
        · subst hjk
          rw [List.getElem?_eq_getElem hpl] at hp
          rw [List.getElem?_eq_getElem hk] at hc
          cases hp
          cases hc
          exact hgt1
        · exact hex.1 j p c hj hjk hp hc

theorem heapExcept_append (data : List Patient) (x : Patient) (h : MinHeap data) :
    HeapExcept (data ++ [x]) data.length := by
  constructor
  · intro j p c hj hjk hp hc
    have hjl : j < data.length := by
      rcases Nat.lt_or_ge j (data ++ [x]).length with h1 | h1
      · simp at h1; omega
      · rw [List.getElem?_eq_none h1] at hc; cases hc
    have hpl : getParent j < data.length := by
      have := getParent_lt (show j ≠ 0 by omega)
      omega
    rw [List.getElem?_append_left hjl] at hc
    rw [List.getElem?_append_left hpl] at hp
    exact h j p c hj hp hc
  · intro j g c hj hjp _ _ hc
    have := getParent_lt (show j ≠ 0 by omega)
    rw [List.getElem?_eq_none (by simp; omega)] at hc
    cases hc

theorem add_minHeap {q q1 : PatientPriorityQueuex} {p : Patient}
    (hwf : q.heapSize = q.data.length) (hheap : MinHeap q.data) (h : q.add p = some q1) :
    MinHeap q1.data := by
  unfold add siftUp at h
  simp only [Nat.add_sub_cancel] at h
  cases hs : siftUpFuel (q.heapSize + 1) (q.data ++ [p]) q.heapSize with
  | none => simp [hs] at h
  | some r =>
    simp only [hs, Option.some.injEq] at h
    subst h
    rw [hwf] at hs
    exact siftUpFuel_minHeap _ _ _ (by simp) (heapExcept_append q.data p hheap) r hs

theorem minHeap_root_le (data : List Patient) (h : MinHeap data) (r : Patient)
    (hr : data[0]? = some r) :
    ∀ (i : Nat) (e : Patient), data[i]? = some e → r.gt e = false := by
  intro i
  induction i using Nat.strong_induction_on with
  | _ i ih =>
    intro e he
    by_cases hi : i = 0
    · subst hi
      rw [hr] at he
      cases he
      exact gt_self r
    · have hpi := getParent_lt hi
      have hil : i < data.length := by
        rcases Nat.lt_or_ge i data.length with h1 | h1
        · exact h1
        · rw [List.getElem?_eq_none h1] at he; cases he
      have hpl : getParent i < data.length := by omega
      exact gt_false_trans (ih _ hpi _ (List.getElem?_eq_getElem hpl))
        (h i _ e (by omega) (List.getElem?_eq_getElem hpl) he)

theorem reachableByAdd_reachable {q : PatientPriorityQueuex} (h : ReachableByAdd q) :
    Reachable q := by
  induction h with
  | init => exact Reachable.init
  | add q q1 pc name _ hadd ih => exact Reachable.add q q1 pc name ih hadd

theorem reachableByAdd_minHeap {q : PatientPriorityQueuex} (h : ReachableByAdd q) :
    MinHeap q.data := by
  induction h with
  | init =>
    intro j p c _ _ hc
    simp [empty] at hc
  | add q q1 pc name hq hadd ih =>
    exact add_minHeap (reachable_wf (reachableByAdd_reachable hq)) ih hadd

end PatientPriorityQueuex

/-! ## Ties within one priority class -/

namespace PatientPriorityQueuex

theorem reachableByAdd_XYZ :
    ReachableByAdd ⟨[⟨"X".toList, 1, 1⟩, ⟨"Y".toList, 1, 2⟩, ⟨"Z".toList, 1, 3⟩], 3⟩ :=
  ReachableByAdd.add ⟨[⟨"X".toList, 1, 1⟩, ⟨"Y".toList, 1, 2⟩], 2⟩ _ 1 "Z".toList
    (ReachableByAdd.add ⟨[⟨"X".toList, 1, 1⟩], 1⟩ _ 1 "Y".toList
      (ReachableByAdd.add empty _ 1 "X".toList ReachableByAdd.init (by decide))
      (by decide))
    (by decide)

/-- C3 as stated fails: after three add(immediate, ...) calls for "X", "Y",
"Z" (arrival numbers 1, 2, 3) the root is "X", the entry with the smallest
arrival number, not "Z"; the three removes serve "X", then "Y", then "Z". So
the root of a queue whose entries share one class is not always the entry with
the largest arrival number. Once a `remove` has run the root need be neither
the largest nor the smallest: four add(immediate, ...) calls and one remove
give a root with arrival number 2 among the arrival numbers 1, 2, 3. -/
theorem C3_root_is_not_largest_arrival :
    (PatientPriorityQueuex.mk [⟨"X".toList, 1, 1⟩, ⟨"Y".toList, 1, 2⟩,
        ⟨"Z".toList, 1, 3⟩] 3).peek = some "X".toList ∧
      (PatientPriorityQueuex.mk [⟨"X".toList, 1, 1⟩, ⟨"Y".toList, 1, 2⟩,
        ⟨"Z".toList, 1, 3⟩] 3).remove
        = some ⟨[⟨"Y".toList, 1, 1⟩, ⟨"Z".toList, 1, 2⟩], 2⟩ ∧
      (PatientPriorityQueuex.mk [⟨"Y".toList, 1, 1⟩, ⟨"Z".toList, 1, 2⟩] 2).remove
        = some ⟨[⟨"Z".toList, 1, 1⟩], 1⟩ ∧
      ¬ (∀ q : PatientPriorityQueuex, Reachable q →
          (∀ e ∈ q.data, ∀ e1 ∈ q.data, e.priorityCode = e1.priorityCode) →
          ∀ r, q.data[0]? = some r → ∀ e ∈ q.data, e.arrivalTime ≤ r.arrivalTime) ∧
      Reachable ⟨[⟨"C".toList, 1, 2⟩, ⟨"B".toList, 1, 1⟩, ⟨"D".toList, 1, 3⟩], 3⟩ := by
  refine ⟨by decide, by decide, by decide, ?_, reachable_four_immediate_removed⟩
  intro h
  have := h _ (reachableByAdd_reachable reachableByAdd_XYZ) (by decide)
    ⟨"X".toList, 1, 1⟩ rfl ⟨"Z".toList, 1, 3⟩ (by simp)
  exact absurd this (by decide)

/-- C3 as amended: in every non-empty queue reached from the empty queue by
add calls alone (arrival number `size() + 1`) whose entries share one priority
class, the root entry, the one `peek` names, is the entry with the smallest
arrival number, which is 1. -/
theorem C3_root_smallest_arrival_after_adds (q : PatientPriorityQueuex)
    (h : ReachableByAdd q)
    (hclass : ∀ e ∈ q.data, ∀ e1 ∈ q.data, e.priorityCode = e1.priorityCode)
    (r : Patient) (hr : q.data[0]? = some r) :
    q.peek = some r.getName ∧ r.getArrivalTime = 1 ∧
      ∀ e ∈ q.data, r.getArrivalTime ≤ e.getArrivalTime := by
  have hreach := reachableByAdd_reachable h
  obtain ⟨hwf, hnd, hrange⟩ := reachable_denseArrivals hreach
  have hheap := reachableByAdd_minHeap h
  have hrmem : r ∈ q.data := List.getElem?_mem hr
  have hmin : ∀ e ∈ q.data, r.arrivalTime ≤ e.arrivalTime := by
    intro e he
    obtain ⟨i, hi, hie⟩ := List.getElem_of_mem he
    have := minHeap_root_le q.data hheap r hr i e (by rw [List.getElem?_eq_getElem hi, hie])
    rw [gt_eq_false_iff] at this
    have := hclass r hrmem e he
    omega
  have hlen : 0 < q.data.length := List.length_pos_of_mem hrmem
  refine ⟨?_, ?_, hmin⟩
  · have hne : q.heapSize ≠ 0 := by omega
    cases hd : q.data with
    | nil => rw [hd] at hlen; simp at hlen
    | cons x xs =>
      rw [hd] at hr
      simp only [List.getElem?_cons_zero, Option.some.injEq] at hr
      subst hr
      simp [peek, hne, hd]
  · have hperm := perm_range_of_nodup (q.data.map Patient.arrivalTime) hnd
      (by simpa using hrange)
    have h1 : (1 : Int) ∈ q.data.map Patient.arrivalTime := by
      rw [hperm.mem_iff, List.mem_map]
      exact ⟨1, by rw [List.mem_range'_1]; simp; omega, rfl⟩
    obtain ⟨e, he, he1⟩ := List.mem_map.1 h1
    have hle := hmin e he
    have hge := (hrange r.arrivalTime (List.mem_map_of_mem _ hrmem)).1
    simp only [Patient.getArrivalTime]
    omega

/-- A use of the amended C3 on the queue built by three add(immediate, ...)
calls for "X", "Y", "Z". -/
theorem C3_root_smallest_arrival_after_adds_witness :
    ReachableByAdd ⟨[⟨"X".toList, 1, 1⟩, ⟨"Y".toList, 1, 2⟩, ⟨"Z".toList, 1, 3⟩], 3⟩ ∧
      (PatientPriorityQueuex.mk [⟨"X".toList, 1, 1⟩, ⟨"Y".toList, 1, 2⟩,
        ⟨"Z".toList, 1, 3⟩] 3).peek = some "X".toList ∧
      (Patient.mk "X".toList 1 1).getArrivalTime = 1 ∧
      ∀ e ∈ ([⟨"X".toList, 1, 1⟩, ⟨"Y".toList, 1, 2⟩, ⟨"Z".toList, 1, 3⟩] : List Patient),
        (Patient.mk "X".toList 1 1).getArrivalTime ≤ e.getArrivalTime :=
  ⟨reachableByAdd_XYZ,
    C3_root_smallest_arrival_after_adds
      ⟨[⟨"X".toList, 1, 1⟩, ⟨"Y".toList, 1, 2⟩, ⟨"Z".toList, 1, 3⟩], 3⟩
      reachableByAdd_XYZ (by decide) ⟨"X".toList, 1, 1⟩ rfl⟩

end PatientPriorityQueuex

/-! ## Export and replay -/

namespace PatientPriorityQueuex

theorem sortInnerLoop_some :
    ∀ (remaining j : Nat) (copy : List Patient),
      remaining = 0 ∨ j + remaining < copy.length →
        ∃ c, sortInnerLoop remaining j copy = some c ∧ c.Perm copy
  | 0, _, copy, _ => ⟨copy, rfl, List.Perm.refl _⟩
  | remaining + 1, j, copy, h => by
    have hj1 : j + 1 < copy.length := by omega
    have hj : j < copy.length := by omega
    unfold sortInnerLoop
    simp only [List.getElem?_eq_getElem hj, List.getElem?_eq_getElem hj1]
    by_cases hgt : copy[j].getArrivalTime > copy[j + 1].getArrivalTime
    · simp only [hgt, if_true, swapAt_eq_some copy _ _ hj hj1]
      have hperm := swapAt_perm (swapAt_eq_some copy _ _ hj hj1)
      obtain ⟨c, hc, hcp⟩ := sortInnerLoop_some remaining (j + 1) _
        (by rw [hperm.length_eq]; omega)
      exact ⟨c, hc, hcp.trans hperm⟩
    · simp only [hgt, if_false]
      exact sortInnerLoop_some remaining (j + 1) copy (by omega)

theorem sortOuterLoop_some (heapSize : Nat) :
    ∀ (remaining i : Nat) (copy : List Patient),
      heapSize ≤ copy.length →
        ∃ c, sortOuterLoop heapSize remaining i copy = some c ∧ c.Perm copy
  | 0, _, copy, _ => ⟨copy, rfl, List.Perm.refl _⟩
  | remaining + 1, i, copy, h => by
    unfold sortOuterLoop
    obtain ⟨c1, hc1, hp1⟩ := sortInnerLoop_some (heapSize - i - 1) 0 copy (by omega)
    simp only [hc1]
    obtain ⟨c, hc, hcp⟩ := sortOuterLoop_some heapSize remaining (i + 1) c1
      (by rw [hp1.length_eq]; exact h)
    exact ⟨c, hc, hcp.trans hp1⟩

theorem sortByArrival_some (q : PatientPriorityQueuex) (hwf : q.heapSize = q.data.length) :
    ∃ copy, q.sortByArrival = some copy ∧ copy.Perm q.data :=
  sortOuterLoop_some q.heapSize (q.heapSize - 1) 0 q.data (by omega)

theorem getPriorityString_eq (priority : Int) (h1 : 1 ≤ priority) (h4 : priority ≤ 4) :
    getPriorityString priority = some (priorityName priority) := by
  have : priority = 1 ∨ priority = 2 ∨ priority = 3 ∨ priority = 4 := by omega
  rcases this with h | h | h | h <;> subst h <;> rfl

theorem saveLoop_append (n : Nat) :
    ∀ (suf pre : List Patient) (ss : List Char),
      n = (pre ++ suf).length → suf ≠ [] →
      (∀ e ∈ suf, 1 ≤ e.priorityCode ∧ e.priorityCode ≤ 4) →
        ∃ t, saveLoop n suf.length pre.length (pre ++ suf) ss = some t ∧
          t ++ ['\n'] = ss ++ (suf.map (fun e => exportLine e ++ ['\n'])).flatten
  | [], _, _, _, hne, _ => absurd rfl hne
  | [e], pre, ss, hn, _, hcls => by
    have hc := hcls e (List.mem_singleton_self e)
    have hlt : ¬ pre.length < n - 1 := by
      simp at hn
      omega
    simp only [List.length_singleton, saveLoop, getElem?_length_append,
      Patient.getPriorityCode, getPriorityString_eq _ hc.1 hc.2, hlt, if_false,
      Patient.getName]
    refine ⟨_, rfl, ?_⟩
    simp [exportLine]
  | e :: e1 :: rest, pre, ss, hn, _, hcls => by
    have hc := hcls e (List.mem_cons_self _ _)
    have hlt : pre.length < n - 1 := by
      simp at hn
      omega
    simp only [List.length_cons]
    unfold saveLoop
    simp only [getElem?_length_append, Patient.getPriorityCode,
      getPriorityString_eq _ hc.1 hc.2, hlt, if_true, Patient.getName]
    have hsplit : pre ++ e :: e1 :: rest = (pre ++ [e]) ++ (e1 :: rest) := by simp
    obtain ⟨t, ht, htt⟩ := saveLoop_append n (e1 :: rest) (pre ++ [e])
      (ss ++ "add ".toList ++ priorityName e.priorityCode ++ " ".toList ++ e.name ++ ['\n'])
      (by rw [← hsplit]; exact hn) (by simp)
      (fun x hx => hcls x (List.mem_cons_of_mem _ hx))
    rw [← hsplit] at ht
    simp only [List.length_append, List.length_singleton, List.length_cons] at ht
    refine ⟨t, ht, ?_⟩
    rw [htt]
    simp [exportLine]

theorem save_some (q : PatientPriorityQueuex) (hwf : q.heapSize = q.data.length)
    (hcls : ∀ e ∈ q.data, 1 ≤ e.priorityCode ∧ e.priorityCode ≤ 4) :
    ∃ copy, q.sortByArrival = some copy ∧ copy.Perm q.data ∧
      q.save = some (if copy = [] then ['\n']
        else (copy.map (fun e => exportLine e ++ ['\n'])).flatten) := by
  obtain ⟨copy, hcopy, hperm⟩ := sortByArrival_some q hwf
  refine ⟨copy, hcopy, hperm, ?_⟩
  have hlen : q.heapSize = copy.length := by rw [hwf, hperm.length_eq]
  unfold save
  simp only [hcopy]
  by_cases hnil : copy = []
  · subst hnil
    simp at hlen
    simp [hlen, saveLoop]
  · obtain ⟨t, ht, htt⟩ := saveLoop_append q.heapSize copy [] [] (by simpa using hlen) hnil
      (fun e he => hcls e (hperm.mem_iff.1 he))
    simp only [List.length_nil, List.nil_append] at ht htt
    rw [← hlen] at ht
    simp only [ht, hnil, if_false, htt]

end PatientPriorityQueuex

namespace P3x

open PatientPriorityQueuex

theorem getlinesFrom_line :
    ∀ (l cur rest : List Char), '\n' ∉ l →
      getlinesFrom cur (l ++ '\n' :: rest) = (cur ++ l) :: getlinesFrom [] rest
  | [], cur, rest, _ => by simp [getlinesFrom]
  | c :: l, cur, rest, h => by
    have hc : c ≠ '\n' := fun e => h (e ▸ List.mem_cons_self _ _)
    have hl : '\n' ∉ l := fun e => h (List.mem_cons_of_mem _ e)
    have ih := getlinesFrom_line l (cur ++ [c]) rest hl
    rw [List.cons_append, getlinesFrom]
    simp only [hc, if_false]
    rw [ih]
    simp

theorem getlines_flatten :
    ∀ (ls : List (List Char)), (∀ l ∈ ls, '\n' ∉ l) →
      getlines ((ls.map (fun l => l ++ ['\n'])).flatten) = ls
  | [], _ => by simp [getlines, getlinesFrom]
  | l :: ls, h => by
    have ih := getlines_flatten ls (fun x hx => h x (List.mem_cons_of_mem _ hx))
    simp only [getlines] at ih ⊢
    simp only [List.map_cons, List.flatten_cons, List.append_assoc, List.singleton_append]
    rw [getlinesFrom_line l [] _ (h l (List.mem_cons_self _ _)), ih]
    simp

theorem strFind_append (c : Char) :
    ∀ (l r : List Char), c ∉ l → strFind c (l ++ c :: r) = some l.length
  | [], r, _ => by simp [strFind]
  | x :: l, r, h => by
    have hx : x ≠ c := fun e => h (e ▸ List.mem_cons_self _ _)
    have hl : c ∉ l := fun e => h (List.mem_cons_of_mem _ e)
    simp [strFind, hx, strFind_append c l r hl]

theorem delimitBySpace_append (l r : List Char) (h : ' ' ∉ l) :
    delimitBySpace (l ++ ' ' :: r) = (l, r) := by
  simp [delimitBySpace, strFind_append ' ' l r h, substr]

theorem findLastNotOf_eq (c : Char) :
    ∀ (l : List Char) (y : Char), l.getLast? = some y → y ≠ c →
      findLastNotOf c l = some (l.length - 1)
  | [], _, h, _ => by simp at h
  | [x], y, h, hy => by
    simp at h
    subst h
    simp [findLastNotOf, hy]
  | x :: x1 :: t, y, h, hy => by
    rw [List.getLast?_cons_cons] at h
    have ih := findLastNotOf_eq c (x1 :: t) y h hy
    rw [findLastNotOf, ih]
    simp

theorem trim_eq_self (l : List Char) (x y : Char) (hx : l.head? = some x) (hx1 : x ≠ ' ')
    (hy : l.getLast? = some y) (hy1 : y ≠ ' ') : trim l = l := by
  cases l with
  | nil => simp at hx
  | cons a t =>
    simp at hx
    subst hx
    have hlast := findLastNotOf_eq ' ' (a :: t) y hy hy1
    unfold trim
    rw [hlast]
    simp [findFirstNotOf, hx1, substr]

open PatientPriorityQueuex

theorem parseAddPatientInput_line (pname name : List Char) (x y z : Char)
    (hx : pname.head? = some x) (hx1 : x ≠ ' ') (hsp : ' ' ∉ pname)
    (hlow : toLower pname = pname)
    (hz : name.head? = some z) (hz1 : z ≠ ' ')
    (hy : name.getLast? = some y) (hy1 : y ≠ ' ') :
    parseAddPatientInput (pname ++ ' ' :: name) = some (pname, name) := by
  have hhead : (pname ++ ' ' :: name).head? = some x := by
    cases pname with
    | nil => simp at hx
    | cons a t => simpa using hx
  have hlast : (pname ++ ' ' :: name).getLast? = some y := by
    cases name with
    | nil => simp at hz
    | cons a t =>
      rw [List.getLast?_append, List.getLast?_cons_cons, hy]
      rfl
  have hpne : pname.length ≠ 0 := by
    cases pname with
    | nil => simp at hx
    | cons a t => simp
  have hnne : name.length ≠ 0 := by
    cases name with
    | nil => simp at hz
    | cons a t => simp
  unfold parseAddPatientInput
  simp only [trim_eq_self _ x y hhead hx1 hlast hy1, delimitBySpace_append pname name hsp,
    hlow, hpne, if_false, trim_eq_self name z y hz hz1 hy hy1, hnne]

theorem priorityName_facts (priority : Int) (h1 : 1 ≤ priority) (h4 : priority ≤ 4) :
    ∃ x, (priorityName priority).head? = some x ∧ x ≠ ' ' ∧ ' ' ∉ priorityName priority ∧
      '\n' ∉ priorityName priority ∧
      toLower (priorityName priority) = priorityName priority ∧
      getPriorityCode (priorityName priority) = priority := by
  have : priority = 1 ∨ priority = 2 ∨ priority = 3 ∨ priority = 4 := by omega
  rcases this with h | h | h | h <;> subst h
  · exact ⟨'i', by decide, by decide, by decide, by decide, by decide, by decide⟩
  · exact ⟨'e', by decide, by decide, by decide, by decide, by decide, by decide⟩
  · exact ⟨'u', by decide, by decide, by decide, by decide, by decide, by decide⟩
  · exact ⟨'m', by decide, by decide, by decide, by decide, by decide, by decide⟩

/-- The conditions on a name under which its export line can be replayed. -/
theorem name_ends (name : List Char) (hne : name ≠ []) (hhead : name.head? ≠ some ' ')
    (hlast : name.getLast? ≠ some ' ') :
    ∃ z y, name.head? = some z ∧ z ≠ ' ' ∧ name.getLast? = some y ∧ y ≠ ' ' := by
  cases hz : name.head? with
  | none => simp at hz; exact absurd hz hne
  | some z =>
    cases hy : name.getLast? with
    | none => simp at hy; exact absurd hy hne
    | some y =>
      refine ⟨z, y, rfl, ?_, rfl, ?_⟩
      · intro e; subst e; exact hhead hz
      · intro e; subst e; exact hlast hy

theorem addPatientCmd_line (e : Patient) (q : PatientPriorityQueuex)
    (h1 : 1 ≤ e.priorityCode) (h4 : e.priorityCode ≤ 4) (hne : e.name ≠ [])
    (hhead : e.name.head? ≠ some ' ') (hlast : e.name.getLast? ≠ some ' ') :
    addPatientCmd (priorityName e.priorityCode ++ ' ' :: e.name) q =
      q.addNext e.priorityCode e.name := by
  obtain ⟨x, hx, hx1, hsp, _, hlow, hcode⟩ := priorityName_facts e.priorityCode h1 h4
  obtain ⟨z, y, hz, hz1, hy, hy1⟩ := name_ends e.name hne hhead hlast
  unfold addPatientCmd
  rw [parseAddPatientInput_line _ _ x y z hx hx1 hsp hlow hz hz1 hy hy1]
  have hm1 : e.priorityCode ≠ -1 := by omega
  simp only [hcode, hm1, if_false, addNext]

theorem processLineFuel_exportLine (extractInt : List Char → Int) (fuel : Nat) (e : Patient)
    (st : Files × PatientPriorityQueuex)
    (h1 : 1 ≤ e.priorityCode) (h4 : e.priorityCode ≤ 4) (hne : e.name ≠ [])
    (hhead : e.name.head? ≠ some ' ') (hlast : e.name.getLast? ≠ some ' ') :
    processLineFuel extractInt (fuel + 1) (exportLine e) st =
      match st.2.addNext e.priorityCode e.name with
      | some q1 => some (true, (st.1, q1))
      | none => none := by
  have hline : exportLine e =
      "add".toList ++ ' ' :: (priorityName e.priorityCode ++ ' ' :: e.name) := by
    simp [exportLine]
  have hnosp : ' ' ∉ "add".toList := by decide
  have hlen : ("add".toList).length ≠ 0 := by decide
  have hlow : toLower "add".toList = "add".toList := by decide
  have hhelp : ¬ "add".toList = "help".toList := by decide
  unfold processLineFuel
  simp only [hline, delimitBySpace_append _ _ hnosp, hlen, if_false, hlow, hhelp, if_true,
    addPatientCmd_line e st.2 h1 h4 hne hhead hlast]

theorem processLineFuel_nil (extractInt : List Char → Int) (fuel : Nat)
    (st : Files × PatientPriorityQueuex) :
    processLineFuel extractInt (fuel + 1) [] st = some (false, st) := by
  simp [processLineFuel, delimitBySpace, strFind]

open PatientPriorityQueuex

theorem replayLines_cons (extractInt : List Char → Int) (fuel : Nat) (l : List Char)
    (ls : List (List Char)) (st : Files × PatientPriorityQueuex) :
    replayLines extractInt fuel (l :: ls) st =
      match processLineFuel extractInt fuel l st with
      | some r => replayLines extractInt fuel ls r.2
      | none => none := by
  unfold replayLines
  rw [List.foldlM_cons]
  cases processLineFuel extractInt fuel l st <;> rfl

theorem replayLines_export (extractInt : List Char → Int) (fuel : Nat) (files : Files) :
    ∀ (copy : List Patient) (q0 : PatientPriorityQueuex),
      q0.heapSize = q0.data.length →
      (∀ e ∈ copy, 1 ≤ e.priorityCode ∧ e.priorityCode ≤ 4 ∧ e.name ≠ [] ∧
        e.name.head? ≠ some ' ' ∧ e.name.getLast? ≠ some ' ') →
      ∃ q1, replayLines extractInt (fuel + 1) (copy.map exportLine) (files, q0) =
          some (files, q1) ∧
        q1.heapSize = q1.data.length ∧
        q1.data.Perm (q0.data ++ (copy.enumFrom (q0.heapSize + 1)).map
          (fun p => ⟨p.2.name, p.2.priorityCode, (p.1 : Int)⟩))
  | [], q0, hwf, _ => ⟨q0, rfl, hwf, by simp⟩
  | e :: es, q0, hwf, h => by
    obtain ⟨h1, h4, hne, hhead, hlast⟩ := h e (List.mem_cons_self _ _)
    obtain ⟨q, hq, hperm, hsz, hwfq⟩ := add_some q0 ⟨e.name, e.priorityCode, (q0.size : Int) + 1⟩ hwf
    obtain ⟨q1, hq1, hwf1, hperm1⟩ := replayLines_export extractInt fuel files es q hwfq
      (fun x hx => h x (List.mem_cons_of_mem _ hx))
    refine ⟨q1, ?_, hwf1, ?_⟩
    · rw [List.map_cons, replayLines_cons,
        processLineFuel_exportLine extractInt fuel e (files, q0) h1 h4 hne hhead hlast]
      simp only [addNext, hq]
      exact hq1
    · refine hperm1.trans ?_
      rw [hsz]
      simp only [List.enumFrom_cons, List.map_cons]
      have := hperm.append_right ((es.enumFrom (q0.heapSize + 1 + 1)).map
        (fun p => (⟨p.2.name, p.2.priorityCode, (p.1 : Int)⟩ : Patient)))
      simpa [size] using this

theorem map_key_enumFrom :
    ∀ (copy : List Patient) (s : Nat),
      ((copy.enumFrom s).map
          (fun p => (⟨p.2.name, p.2.priorityCode, (p.1 : Int)⟩ : Patient))).map
        (fun e => (e.priorityCode, e.name)) = copy.map (fun e => (e.priorityCode, e.name))
  | [], _ => rfl
  | e :: es, s => by
    simp only [List.enumFrom_cons, List.map_cons]
    rw [map_key_enumFrom es (s + 1)]

theorem map_arrival_enumFrom :
    ∀ (copy : List Patient) (s : Nat),
      ((copy.enumFrom s).map
          (fun p => (⟨p.2.name, p.2.priorityCode, (p.1 : Int)⟩ : Patient))).map
        Patient.getArrivalTime = (List.range' s copy.length).map Int.ofNat
  | [], _ => rfl
  | e :: es, s => by
    simp only [List.enumFrom_cons, List.map_cons, List.length_cons, List.range'_succ]
    rw [map_arrival_enumFrom es (s + 1)]
    rfl

theorem exportLine_no_newline (e : Patient) (h1 : 1 ≤ e.priorityCode)
    (h4 : e.priorityCode ≤ 4) (hnl : '\n' ∉ e.name) : '\n' ∉ exportLine e := by
  obtain ⟨_, _, _, _, hn, _, _⟩ := priorityName_facts e.priorityCode h1 h4
  have hadd : '\n' ∉ "add ".toList := by decide
  have hsp : '\n' ∉ " ".toList := by decide
  simp only [exportLine, List.mem_append, not_or]
  exact ⟨⟨⟨hadd, hn⟩, hsp⟩, hnl⟩

open PatientPriorityQueuex

/-- C10: for a queue whose entries have classes in `1..4` and names that are
non-empty, contain no newline and neither start nor end with a space, `save`
returns a text whose lines, fed in order through `processLine` on a fresh
empty queue, give a queue of the same size with the same multiset of
(priority class, name) pairs; the k-th line is `add <priority name> <name>` of
the k-th entry in export order, the entry created from it has arrival number
k, and so the arrival numbers are exactly `1..n`. -/
theorem C10_export_replay_round_trip (extractInt : List Char → Int) (fuel : Nat)
    (files : Files) (q : PatientPriorityQueuex)
    (hwf : q.heapSize = q.data.length)
    (hentries : ∀ e ∈ q.data, 1 ≤ e.priorityCode ∧ e.priorityCode ≤ 4 ∧ e.name ≠ [] ∧
      '\n' ∉ e.name ∧ e.name.head? ≠ some ' ' ∧ e.name.getLast? ≠ some ' ') :
    ∃ (text : List Char) (copy : List Patient) (q1 : PatientPriorityQueuex),
      q.save = some text ∧ q.sortByArrival = some copy ∧ copy.Perm q.data ∧
      (∀ (k : Nat) (e : Patient), copy[k]? = some e →
        (getlines text)[k]? = some (exportLine e)) ∧
      replayLines extractInt (fuel + 1) (getlines text) (files, empty) = some (files, q1) ∧
      q1.size = q.size ∧ q1.size = q1.data.length ∧
      q1.data.Perm ((copy.enumFrom 1).map
        (fun p => ⟨p.2.name, p.2.priorityCode, (p.1 : Int)⟩)) ∧
      (q1.data.map (fun e => (e.getPriorityCode, e.getName))).Perm
        (q.data.map (fun e => (e.getPriorityCode, e.getName))) ∧
      (q1.data.map Patient.getArrivalTime).Perm ((List.range' 1 q.size).map Int.ofNat) := by
  obtain ⟨copy, hsort, hperm, hsave⟩ := save_some q hwf
    (fun e he => ⟨(hentries e he).1, (hentries e he).2.1⟩)
  have hcopy : ∀ e ∈ copy, 1 ≤ e.priorityCode ∧ e.priorityCode ≤ 4 ∧ e.name ≠ [] ∧
      '\n' ∉ e.name ∧ e.name.head? ≠ some ' ' ∧ e.name.getLast? ≠ some ' ' :=
    fun e he => hentries e (hperm.mem_iff.1 he)
  have hlen : copy.length = q.size := by rw [hperm.length_eq, size, hwf]
  by_cases hnil : copy = []
  · subst hnil
    simp only [if_true] at hsave
    have hq0 : q.size = 0 := by rw [← hlen]; rfl
    have hdata : q.data = [] := List.Perm.nil_eq hperm |>.symm
    refine ⟨['\n'], [], empty, hsave, hsort, hperm, ?_, ?_, ?_, rfl, ?_, ?_, ?_⟩
    · intro k e hk
      simp at hk
    · have hl : getlines ['\n'] = [[]] := by decide
      rw [hl, replayLines_cons, processLineFuel_nil]
      rfl
    · rw [hq0]; rfl
    · simp [empty]
    · simp [empty, hdata]
    · simp [empty, hq0]
  · simp only [hnil, if_false] at hsave
    have hlines : getlines ((copy.map (fun e => exportLine e ++ ['\n'])).flatten) =
        copy.map exportLine := by
      have := getlines_flatten (copy.map exportLine) (by
        intro l hl
        obtain ⟨e, he, rfl⟩ := List.mem_map.1 hl
        have hc := hcopy e he
        exact exportLine_no_newline e hc.1 hc.2.1 hc.2.2.2.1)
      rw [List.map_map] at this
      exact this
    obtain ⟨q1, hq1, hwf1, hperm1⟩ := replayLines_export extractInt fuel files copy empty rfl
      (fun e he => ⟨(hcopy e he).1, (hcopy e he).2.1, (hcopy e he).2.2.1,
        (hcopy e he).2.2.2.2.1, (hcopy e he).2.2.2.2.2⟩)
    simp only [empty, List.nil_append, Nat.zero_add] at hperm1
    have hlen1 : q1.data.length = copy.length := by
      rw [hperm1.length_eq]; simp
    refine ⟨_, copy, q1, hsave, hsort, hperm, ?_, ?_, ?_, hwf1, hperm1, ?_, ?_⟩
    · intro k e hk
      rw [hlines, List.getElem?_map, hk]
      rfl
    · rw [hlines]
      exact hq1
    · rw [size, hwf1, hlen1, hlen]
    · have h1 := hperm1.map (fun e => (e.getPriorityCode, e.getName))
      have h2 := map_key_enumFrom copy 1
      simp only [Patient.getPriorityCode, Patient.getName] at h1 ⊢
      rw [h2] at h1
      exact h1.trans (hperm.map _)
    · have h1 := hperm1.map Patient.getArrivalTime
      rw [map_arrival_enumFrom copy 1, hlen] at h1
      exact h1

/-- A use of C10 on the queue holding "A" (immediate, arrival 1) and "Bo Li"
(minimal, arrival 2). -/
theorem C10_export_replay_round_trip_witness :
    (∀ e ∈ ([⟨"A".toList, 1, 1⟩, ⟨"Bo Li".toList, 4, 2⟩] : List Patient),
      1 ≤ e.priorityCode ∧ e.priorityCode ≤ 4 ∧ e.name ≠ [] ∧
      '\n' ∉ e.name ∧ e.name.head? ≠ some ' ' ∧ e.name.getLast? ≠ some ' ') ∧
    ∃ (text : List Char) (copy : List Patient) (q1 : PatientPriorityQueuex),
      (PatientPriorityQueuex.mk [⟨"A".toList, 1, 1⟩, ⟨"Bo Li".toList, 4, 2⟩] 2).save
        = some text ∧
      (PatientPriorityQueuex.mk [⟨"A".toList, 1, 1⟩, ⟨"Bo Li".toList, 4, 2⟩] 2).sortByArrival
        = some copy ∧
      copy.Perm [⟨"A".toList, 1, 1⟩, ⟨"Bo Li".toList, 4, 2⟩] ∧
      (∀ (k : Nat) (e : Patient), copy[k]? = some e →
        (getlines text)[k]? = some (exportLine e)) ∧
      replayLines (fun _ => 0) (0 + 1) (getlines text) (noFiles, empty)
        = some (noFiles, q1) ∧
      q1.size = 2 ∧ q1.size = q1.data.length ∧
      q1.data.Perm ((copy.enumFrom 1).map
        (fun p => ⟨p.2.name, p.2.priorityCode, (p.1 : Int)⟩)) ∧
      (q1.data.map (fun e => (e.getPriorityCode, e.getName))).Perm
        (([⟨"A".toList, 1, 1⟩, ⟨"Bo Li".toList, 4, 2⟩] : List Patient).map
          (fun e => (e.getPriorityCode, e.getName))) ∧
      (q1.data.map Patient.getArrivalTime).Perm ((List.range' 1 2).map Int.ofNat) :=
  ⟨by decide,
    C10_export_replay_round_trip (fun _ => 0) 0 noFiles
      ⟨[⟨"A".toList, 1, 1⟩, ⟨"Bo Li".toList, 4, 2⟩], 2⟩ rfl (by decide)⟩

end P3x

/-! ## The bubble sort of `sortByArrival` -/

namespace PatientPriorityQueuex

theorem swapAt_adjacent (pre rest : List Patient) (a b : Patient) :
    swapAt (pre ++ a :: b :: rest) pre.length (pre.length + 1) =
      some (pre ++ b :: a :: rest) := by
  have h1 : (pre ++ a :: b :: rest)[pre.length]? = some a := getElem?_length_append _ _ _
  have h2 : (pre ++ a :: b :: rest)[pre.length + 1]? = some b := by
    have := getElem?_length_append (pre ++ [a]) rest b
    simpa using this
  have h3 : (pre ++ b :: b :: rest).set (pre.length + 1) a = pre ++ b :: a :: rest := by
    have := set_length_append (pre ++ [b]) rest b a
    simp
  simp only [swapAt, h1, h2, set_length_append, h3]

theorem sortInnerLoop_pass :
    ∀ (remaining : Nat) (pre : List Patient) (a : Patient) (rest : List Patient),
      remaining ≤ rest.length →
        ∃ front mx, sortInnerLoop remaining pre.length (pre ++ a :: rest) =
            some (pre ++ front ++ mx :: rest.drop remaining) ∧
          (∀ x ∈ front, x.arrivalTime ≤ mx.arrivalTime) ∧
          (front ++ [mx]).Perm (a :: rest.take remaining) ∧
          ∀ k : Int, (front ++ [mx]).filter (fun e => e.arrivalTime = k) =
            (a :: rest.take remaining).filter (fun e => e.arrivalTime = k)
  | 0, pre, a, rest, _ => ⟨[], a, by simp [sortInnerLoop], by simp, by simp, by simp⟩
  | remaining + 1, pre, a, [], h => by simp at h
  | remaining + 1, pre, a, b :: rest, h => by
    have hr : remaining ≤ rest.length := by simpa using h
    have h1 : (pre ++ a :: b :: rest)[pre.length]? = some a := getElem?_length_append _ _ _
    have h2 : (pre ++ a :: b :: rest)[pre.length + 1]? = some b := by
      have := getElem?_length_append (pre ++ [a]) rest b
      simpa using this
    unfold sortInnerLoop
    simp only [h1, h2, Patient.getArrivalTime]
    by_cases hgt : a.arrivalTime > b.arrivalTime
    · simp only [hgt, if_true, swapAt_adjacent]
      obtain ⟨front, mx, hres, hmax, hperm, hstab⟩ :=
        sortInnerLoop_pass remaining (pre ++ [b]) a rest hr
      simp only [List.length_append, List.length_singleton, List.append_assoc,
        List.singleton_append] at hres
      have hamem : a ∈ front ++ [mx] := hperm.mem_iff.2 (List.mem_cons_self _ _)
      have hamx : a.arrivalTime ≤ mx.arrivalTime := by
        rcases List.mem_append.1 hamem with h | h
        · exact hmax a h
        · simp at h; subst h; exact le_refl _
      refine ⟨b :: front, mx, ?_, ?_, ?_, ?_⟩
      · rw [hres]; simp
      · intro x hx
        rcases List.mem_cons.1 hx with h | h
        · subst h; omega
        · exact hmax x h
      · simp only [List.cons_append, List.take_succ_cons]
        exact (hperm.cons b).trans (List.Perm.swap a b _)
      · intro k
        have hk := hstab k
        simp only [List.cons_append, List.take_succ_cons, List.filter_cons] at hk ⊢
        rw [hk]
        by_cases hak : a.arrivalTime = k <;> by_cases hbk : b.arrivalTime = k
        · omega
        · simp [hak, hbk]
        · simp [hak, hbk]
        · simp [hak, hbk]
    · simp only [hgt, if_false]
      obtain ⟨front, mx, hres, hmax, hperm, hstab⟩ :=
        sortInnerLoop_pass remaining (pre ++ [a]) b rest hr
      simp only [List.length_append, List.length_singleton, List.append_assoc,
        List.singleton_append] at hres
      have hbmem : b ∈ front ++ [mx] := hperm.mem_iff.2 (List.mem_cons_self _ _)
      have hbmx : b.arrivalTime ≤ mx.arrivalTime := by
        rcases List.mem_append.1 hbmem with h | h
        · exact hmax b h
        · simp at h; subst h; exact le_refl _
      refine ⟨a :: front, mx, ?_, ?_, ?_, ?_⟩
      · rw [hres]; simp
      · intro x hx
        rcases List.mem_cons.1 hx with h | h
        · subst h; omega
        · exact hmax x h
      · simp only [List.cons_append, List.take_succ_cons]
        exact hperm.cons a
      · intro k
        have hk := hstab k
        simp only [List.cons_append, List.take_succ_cons, List.filter_cons] at hk ⊢
        rw [hk]

theorem sortOuterLoop_sorted (n : Nat) :
    ∀ (remaining i : Nat) (front back : List Patient),
      front.length = remaining + 1 → i = back.length → n = front.length + back.length →
      back.Pairwise (fun a b => a.arrivalTime ≤ b.arrivalTime) →
      (∀ x ∈ front, ∀ y ∈ back, x.arrivalTime ≤ y.arrivalTime) →
        ∃ c, sortOuterLoop n remaining i (front ++ back) = some c ∧
          c.Pairwise (fun a b => a.arrivalTime ≤ b.arrivalTime) ∧
          c.Perm (front ++ back) ∧
          ∀ k : Int, c.filter (fun e => e.arrivalTime = k) =
            (front ++ back).filter (fun e => e.arrivalTime = k)
  | 0, i, front, back, hf, _, _, hback, hle => by
    refine ⟨front ++ back, rfl, ?_, List.Perm.refl _, fun _ => rfl⟩
    rw [List.pairwise_append]
    refine ⟨?_, hback, hle⟩
    cases front with
    | nil => simp
    | cons x t =>
      have : t = [] := by
        simp at hf
        exact hf
      subst this
      simp
  | remaining + 1, i, [], back, hf, _, _, _, _ => by simp at hf
  | remaining + 1, i, a :: rest, back, hf, hi, hn, hback, hle => by
    have hrl : rest.length = remaining + 1 := by simpa using hf
    have hbound : n - i - 1 = remaining + 1 := by
      simp at hn
      omega
    obtain ⟨front, mx, hres, hmax, hperm, hstab⟩ :=
      sortInnerLoop_pass (remaining + 1) [] a (rest ++ back) (by simp; omega)
    have hdrop : (rest ++ back).drop (remaining + 1) = back := by
      rw [← hrl]; simp
    have htake : (rest ++ back).take (remaining + 1) = rest := by
      rw [← hrl]; simp
    rw [hdrop] at hres
    rw [htake] at hperm hstab
    simp only [List.length_nil, List.nil_append] at hres
    have hfl : front.length = remaining + 1 := by
      have := hperm.length_eq
      simp at this
      omega
    have hmxmem : mx ∈ a :: rest := hperm.mem_iff.1 (by simp)
    obtain ⟨c, hc, hsorted, hcperm, hcstab⟩ :=
      sortOuterLoop_sorted n remaining (i + 1) front (mx :: back) hfl (by simp [hi])
        (by simp at hn ⊢; omega)
        (by
          rw [List.pairwise_cons]
          exact ⟨fun y hy => hle mx hmxmem y hy, hback⟩)
        (by
          intro x hx y hy
          rcases List.mem_cons.1 hy with h | h
          · subst h; exact hmax x hx
          · exact hle x (hperm.mem_iff.1 (List.mem_append_left _ hx)) y h)
    refine ⟨c, ?_, hsorted, ?_, ?_⟩
    · unfold sortOuterLoop
      rw [hbound]
      simp only [List.cons_append, hres]
      exact hc
    · refine hcperm.trans ?_
      have := hperm.append_right back
      simpa using this
    · intro k
      rw [hcstab k]
      have h1 : front ++ mx :: back = (front ++ [mx]) ++ back := by simp
      have h2 : (a :: rest) ++ back = a :: (rest ++ back) := rfl
      rw [h1, List.filter_append, hstab k, ← List.filter_append, h2]

theorem sortByArrival_sorted (q : PatientPriorityQueuex) (hwf : q.heapSize = q.data.length) :
    ∃ copy, q.sortByArrival = some copy ∧
      copy.Pairwise (fun a b => a.arrivalTime ≤ b.arrivalTime) ∧
      copy.Perm q.data ∧
      ∀ k : Int, copy.filter (fun e => e.arrivalTime = k) =
        q.data.filter (fun e => e.arrivalTime = k) := by
  unfold sortByArrival
  cases hd : q.data with
  | nil =>
    have h0 : q.heapSize = 0 := by rw [hwf, hd]; rfl
    rw [h0]
    exact ⟨[], rfl, List.Pairwise.nil, List.Perm.refl _, fun _ => rfl⟩
  | cons a rest =>
    have hsz : q.heapSize = rest.length + 1 := by rw [hwf, hd]; rfl
    have := sortOuterLoop_sorted q.heapSize (q.heapSize - 1) 0 (a :: rest) []
      (by simp [hsz]) rfl (by simp [hsz]) List.Pairwise.nil (by simp)
    simpa using this

end PatientPriorityQueuex

/-! ## `sortByArrival` and the text of `save` -/

namespace PatientPriorityQueuex

/-- C11: on a queue whose `heapSize` is the length of the vector,
`sortByArrival` returns the stable ascending sort of `data` by arrival number:
a permutation of `data` in which no entry is followed by one with a smaller
arrival number and in which, for every arrival number, the entries with that
number come in the order they have in `data`. -/
theorem C11_sortByArrival_stable_sort (q : PatientPriorityQueuex)
    (hwf : q.heapSize = q.data.length) :
    ∃ copy, q.sortByArrival = some copy ∧ copy.Perm q.data ∧
      copy.Pairwise (fun a b => a.getArrivalTime ≤ b.getArrivalTime) ∧
      ∀ k : Int, copy.filter (fun e => e.getArrivalTime = k) =
        q.data.filter (fun e => e.getArrivalTime = k) := by
  obtain ⟨copy, hcopy, hsorted, hperm, hstab⟩ := sortByArrival_sorted q hwf
  exact ⟨copy, hcopy, hperm, hsorted, hstab⟩

/-- A use of C11 on a vector with two entries of arrival number 2. -/
theorem C11_sortByArrival_stable_sort_witness :
    ∃ copy, (PatientPriorityQueuex.mk [⟨"A".toList, 1, 2⟩, ⟨"B".toList, 2, 1⟩,
          ⟨"C".toList, 3, 2⟩] 3).sortByArrival = some copy ∧
      copy.Perm [⟨"A".toList, 1, 2⟩, ⟨"B".toList, 2, 1⟩, ⟨"C".toList, 3, 2⟩] ∧
      copy.Pairwise (fun a b => a.getArrivalTime ≤ b.getArrivalTime) ∧
      ∀ k : Int, copy.filter (fun e => e.getArrivalTime = k) =
        ([⟨"A".toList, 1, 2⟩, ⟨"B".toList, 2, 1⟩, ⟨"C".toList, 3, 2⟩] : List Patient).filter
          (fun e => e.getArrivalTime = k) :=
  C11_sortByArrival_stable_sort
    ⟨[⟨"A".toList, 1, 2⟩, ⟨"B".toList, 2, 1⟩, ⟨"C".toList, 3, 2⟩], 3⟩ rfl

/-- C12 as stated fails on the empty queue: `save` returns the one-character
text "\n", one empty line, not the empty string. -/
theorem C12_empty_queue_exports_newline :
    empty.save = some ['\n'] ∧ empty.save ≠ some [] := by
  constructor <;> decide

/-- C12 as amended: for a queue with entries of class in `1..4`, `save`
returns, when the queue is not empty, exactly the concatenation over the
entries in stable ascending arrival order of "add " + priority name + " " +
name + "\n", and, when the queue is empty, the text "\n". -/
theorem C12_save_text (q : PatientPriorityQueuex) (hwf : q.heapSize = q.data.length)
    (hcls : ∀ e ∈ q.data, 1 ≤ e.getPriorityCode ∧ e.getPriorityCode ≤ 4) :
    ∃ copy, copy.Perm q.data ∧
      copy.Pairwise (fun a b => a.getArrivalTime ≤ b.getArrivalTime) ∧
      (∀ k : Int, copy.filter (fun e => e.getArrivalTime = k) =
        q.data.filter (fun e => e.getArrivalTime = k)) ∧
      (∀ e ∈ copy, getPriorityString e.getPriorityCode =
        some (priorityName e.getPriorityCode)) ∧
      q.save = some (if copy = [] then "\n".toList
        else (copy.map (fun e => "add ".toList ++ priorityName e.getPriorityCode ++
          " ".toList ++ e.getName ++ "\n".toList)).flatten) := by
  obtain ⟨copy, hcopy, hsorted, hperm, hstab⟩ := sortByArrival_sorted q hwf
  obtain ⟨copy1, hcopy1, _, hsave⟩ := save_some q hwf hcls
  rw [hcopy] at hcopy1
  cases hcopy1
  refine ⟨copy, hperm, hsorted, hstab, ?_, ?_⟩
  · intro e he
    have := hcls e (hperm.mem_iff.1 he)
    exact getPriorityString_eq _ this.1 this.2
  · rw [hsave]
    rfl

/-- A use of the amended C12 on the queue built by add(immediate,"A"),
add(minimal,"B"). -/
theorem C12_save_text_witness :
    (∀ e ∈ ([⟨"A".toList, 1, 1⟩, ⟨"B".toList, 4, 2⟩] : List Patient),
      1 ≤ e.getPriorityCode ∧ e.getPriorityCode ≤ 4) ∧
    ∃ copy, copy.Perm [⟨"A".toList, 1, 1⟩, ⟨"B".toList, 4, 2⟩] ∧
      copy.Pairwise (fun a b => a.getArrivalTime ≤ b.getArrivalTime) ∧
      (∀ k : Int, copy.filter (fun e => e.getArrivalTime = k) =
        ([⟨"A".toList, 1, 1⟩, ⟨"B".toList, 4, 2⟩] : List Patient).filter
          (fun e => e.getArrivalTime = k)) ∧
      (∀ e ∈ copy, getPriorityString e.getPriorityCode =
        some (priorityName e.getPriorityCode)) ∧
      (PatientPriorityQueuex.mk [⟨"A".toList, 1, 1⟩, ⟨"B".toList, 4, 2⟩] 2).save =
        some (if copy = [] then "\n".toList
          else (copy.map (fun e => "add ".toList ++ priorityName e.getPriorityCode ++
            " ".toList ++ e.getName ++ "\n".toList)).flatten) :=
  ⟨by decide,
    C12_save_text ⟨[⟨"A".toList, 1, 1⟩, ⟨"B".toList, 4, 2⟩], 2⟩ rfl (by decide)⟩

end PatientPriorityQueuex

/-! ## Priority names, the empty-queue assertions, `add` and the heap invariant -/

namespace PatientPriorityQueuex

theorem getPriorityCode_cases (s : List Char) :
    (s = "immediate".toList ∧ P3x.getPriorityCode s = 1) ∨
    (s = "emergency".toList ∧ P3x.getPriorityCode s = 2) ∨
    (s = "urgent".toList ∧ P3x.getPriorityCode s = 3) ∨
    (s = "minimal".toList ∧ P3x.getPriorityCode s = 4) ∨
    (s ≠ "immediate".toList ∧ s ≠ "emergency".toList ∧ s ≠ "urgent".toList ∧
      s ≠ "minimal".toList ∧ P3x.getPriorityCode s = -1) := by
  by_cases h1 : "immediate".toList = s
  · subst h1; exact Or.inl ⟨rfl, by decide⟩
  by_cases h2 : "emergency".toList = s
  · subst h2; exact Or.inr (Or.inl ⟨rfl, by decide⟩)
  by_cases h3 : "urgent".toList = s
  · subst h3; exact Or.inr (Or.inr (Or.inl ⟨rfl, by decide⟩))
  by_cases h4 : "minimal".toList = s
  · subst h4; exact Or.inr (Or.inr (Or.inr (Or.inl ⟨rfl, by decide⟩)))
  refine Or.inr (Or.inr (Or.inr (Or.inr ⟨Ne.symm h1, Ne.symm h2, Ne.symm h3, Ne.symm h4, ?_⟩)))
  simp only [P3x.getPriorityCode, h1, h2, h3, h4, if_false]

/-- C13: the classes `1..4` and the names "immediate", "emergency", "urgent",
"minimal" correspond one to one under `getPriorityString` and
`getPriorityCode`; on any other string `getPriorityCode` returns `-1`. -/
theorem C13_priority_names_bijective :
    getPriorityString 1 = some "immediate".toList ∧
    getPriorityString 2 = some "emergency".toList ∧
    getPriorityString 3 = some "urgent".toList ∧
    getPriorityString 4 = some "minimal".toList ∧
    (∀ c : Int, 1 ≤ c → c ≤ 4 →
      ∃ s, getPriorityString c = some s ∧ P3x.getPriorityCode s = c) ∧
    (∀ s : List Char,
      s ∈ ["immediate".toList, "emergency".toList, "urgent".toList, "minimal".toList] →
        1 ≤ P3x.getPriorityCode s ∧ P3x.getPriorityCode s ≤ 4 ∧
          getPriorityString (P3x.getPriorityCode s) = some s) ∧
    (∀ s : List Char,
      s ∉ ["immediate".toList, "emergency".toList, "urgent".toList, "minimal".toList] →
        P3x.getPriorityCode s = -1) := by
  refine ⟨rfl, rfl, rfl, rfl, ?_, ?_, ?_⟩
  · intro c h1 h4
    have : c = 1 ∨ c = 2 ∨ c = 3 ∨ c = 4 := by omega
    rcases this with h | h | h | h <;> subst h <;> exact ⟨_, rfl, by decide⟩
  · intro s hs
    simp only [List.mem_cons, List.mem_singleton, List.not_mem_nil, or_false] at hs
    rcases hs with h | h | h | h <;> subst h <;> exact ⟨by decide, by decide, by decide⟩
  · intro s hs
    simp only [List.mem_cons, List.mem_singleton, List.not_mem_nil, or_false, not_or] at hs
    rcases getPriorityCode_cases s with h | h | h | h | h
    · exact absurd h.1 hs.1
    · exact absurd h.1 hs.2.1
    · exact absurd h.1 hs.2.2.1
    · exact absurd h.1 hs.2.2.2
    · exact h.2.2.2.2

/-- C14: on a queue whose `heapSize` is the length of the vector, `peek` and
`remove` fail exactly when `size()` is `0`; on a non-empty queue `peek`
returns the name of the entry at index `0` and `remove` returns a queue. -/
theorem C14_peek_remove_fail_iff_empty (q : PatientPriorityQueuex)
    (hwf : q.heapSize = q.data.length) :
    (q.peek = none ↔ q.size = 0) ∧ (q.remove = none ↔ q.size = 0) ∧
      (q.size ≠ 0 → ∃ e, q.data[0]? = some e ∧ q.peek = some e.getName ∧
        ∃ q1, q.remove = some q1) := by
  cases hd : q.data with
  | nil =>
    have h0 : q.heapSize = 0 := by rw [hwf, hd]; rfl
    simp [peek, remove, size, h0]
  | cons root rest =>
    have hne : q.heapSize ≠ 0 := by rw [hwf, hd]; simp
    obtain ⟨q1, hq1, _⟩ := remove_some q root rest hwf hd
    have hpeek : q.peek = some root.getName := by simp [peek, hne, hd]
    refine ⟨?_, ?_, ?_⟩
    · simp [hpeek, size, hne]
    · simp [hq1, size, hne]
    · intro _
      exact ⟨root, by simp, hpeek, q1, hq1⟩

/-- A use of C14 on the queue built by add(immediate,"A"), add(minimal,"B"). -/
theorem C14_peek_remove_fail_iff_empty_witness :
    ((PatientPriorityQueuex.mk [⟨"A".toList, 1, 1⟩, ⟨"B".toList, 4, 2⟩] 2).peek = none ↔
        (PatientPriorityQueuex.mk [⟨"A".toList, 1, 1⟩, ⟨"B".toList, 4, 2⟩] 2).size = 0) ∧
      ((PatientPriorityQueuex.mk [⟨"A".toList, 1, 1⟩, ⟨"B".toList, 4, 2⟩] 2).remove = none ↔
        (PatientPriorityQueuex.mk [⟨"A".toList, 1, 1⟩, ⟨"B".toList, 4, 2⟩] 2).size = 0) ∧
      ((PatientPriorityQueuex.mk [⟨"A".toList, 1, 1⟩, ⟨"B".toList, 4, 2⟩] 2).size ≠ 0 →
        ∃ e, ([⟨"A".toList, 1, 1⟩, ⟨"B".toList, 4, 2⟩] : List Patient)[0]? = some e ∧
          (PatientPriorityQueuex.mk [⟨"A".toList, 1, 1⟩, ⟨"B".toList, 4, 2⟩] 2).peek
            = some e.getName ∧
          ∃ q1, (PatientPriorityQueuex.mk [⟨"A".toList, 1, 1⟩, ⟨"B".toList, 4, 2⟩] 2).remove
            = some q1) :=
  C14_peek_remove_fail_iff_empty ⟨[⟨"A".toList, 1, 1⟩, ⟨"B".toList, 4, 2⟩], 2⟩ rfl

theorem specHeapInvariant_iff_minHeap (data : List Patient) :
    SpecHeapInvariant data ↔ MinHeap data := by
  constructor
  · intro h j p c hj hp hc
    have := h (getParent j) j p c (by unfold getParent; omega) hp hc
    rw [gt_eq_false_iff]
    unfold specRanksAbove at this
    omega
  · intro h i c p e hc hp he
    have hpar : getParent c = i := by unfold getParent; omega
    have := h c p e (by omega) (by rw [hpar]; exact hp) he
    rw [gt_eq_false_iff] at this
    unfold specRanksAbove
    omega

/-- C15: on a queue that satisfies the heap invariant of the specification
(and whose `heapSize` is the length of the vector), `add(e)` returns a queue
that is one entry larger, whose entries are the original ones plus `e`, and
that satisfies the heap invariant again. -/
theorem C15_add_keeps_heap_invariant (q : PatientPriorityQueuex) (e : Patient)
    (hwf : q.heapSize = q.data.length) (hheap : SpecHeapInvariant q.data) :
    ∃ q1, q.add e = some q1 ∧ q1.size = q.size + 1 ∧ q1.size = q1.data.length ∧
      (q1.data : Multiset Patient) = (q.data : Multiset Patient) + {e} ∧
      SpecHeapInvariant q1.data := by
  obtain ⟨q1, hq1, hperm, hsz, hwf1⟩ := add_some q e hwf
  refine ⟨q1, hq1, hsz, hwf1, ?_, ?_⟩
  · rw [← Multiset.coe_singleton, Multiset.coe_add, Multiset.coe_eq_coe]
    exact hperm
  · rw [specHeapInvariant_iff_minHeap] at hheap ⊢
    exact add_minHeap hwf hheap hq1

/-- A use of C15: add of "C" (class 1, arrival 3) to the queue holding "A"
(class 2) and "B" (class 4). -/
theorem C15_add_keeps_heap_invariant_witness :
    SpecHeapInvariant [⟨"A".toList, 2, 1⟩, ⟨"B".toList, 4, 2⟩] ∧
    ∃ q1, (PatientPriorityQueuex.mk [⟨"A".toList, 2, 1⟩, ⟨"B".toList, 4, 2⟩] 2).add
          ⟨"C".toList, 1, 3⟩ = some q1 ∧
      q1.size = (PatientPriorityQueuex.mk [⟨"A".toList, 2, 1⟩, ⟨"B".toList, 4, 2⟩] 2).size + 1 ∧
      q1.size = q1.data.length ∧
      (q1.data : Multiset Patient) =
        (([⟨"A".toList, 2, 1⟩, ⟨"B".toList, 4, 2⟩] : List Patient) : Multiset Patient) +
          {⟨"C".toList, 1, 3⟩} ∧
      SpecHeapInvariant q1.data :=
  have hheap : SpecHeapInvariant [⟨"A".toList, 2, 1⟩, ⟨"B".toList, 4, 2⟩] := by
    rw [specHeapInvariant_iff_minHeap]
    exact reachableByAdd_minHeap
      (ReachableByAdd.add ⟨[⟨"A".toList, 2, 1⟩], 1⟩
        ⟨[⟨"A".toList, 2, 1⟩, ⟨"B".toList, 4, 2⟩], 2⟩ 4 "B".toList
        (ReachableByAdd.add empty _ 2 "A".toList ReachableByAdd.init (by decide))
        (by decide))
  ⟨hheap, C15_add_keeps_heap_invariant
    ⟨[⟨"A".toList, 2, 1⟩, ⟨"B".toList, 4, 2⟩], 2⟩ ⟨"C".toList, 1, 3⟩ rfl hheap⟩

end PatientPriorityQueuex

/-! ## The listing -/

namespace PatientPriorityQueuex

theorem toStringLoop_append (n : Nat) :
    ∀ (suf pre : List Patient) (ss : List Char),
      n = (pre ++ suf).length → suf ≠ [] →
      (∀ e ∈ suf, 1 ≤ e.priorityCode ∧ e.priorityCode ≤ 4) →
        ∃ t, toStringLoop n suf.length pre.length (pre ++ suf) ss = some t ∧
          t ++ ['\n'] = ss ++ (suf.map (fun e => listingRow e ++ ['\n'])).flatten
  | [], _, _, _, hne, _ => absurd rfl hne
  | [e], pre, ss, hn, _, hcls => by
    have hc := hcls e (List.mem_singleton_self e)
    have hlt : ¬ pre.length < n - 1 := by
      simp at hn
      omega
    simp only [List.length_singleton, toStringLoop, getElem?_length_append,
      Patient.getPriorityCode, getPriorityString_eq _ hc.1 hc.2, hlt, if_false,
      Patient.getName, Patient.getArrivalTime]
    refine ⟨_, rfl, ?_⟩
    simp [listingRow]
  | e :: e1 :: rest, pre, ss, hn, _, hcls => by
    have hc := hcls e (List.mem_cons_self _ _)
    have hlt : pre.length < n - 1 := by
      simp at hn
      omega
    simp only [List.length_cons]
    unfold toStringLoop
    simp only [getElem?_length_append, Patient.getPriorityCode,
      getPriorityString_eq _ hc.1 hc.2, hlt, if_true, Patient.getName,
      Patient.getArrivalTime]
    have hsplit : pre ++ e :: e1 :: rest = (pre ++ [e]) ++ (e1 :: rest) := by simp
    obtain ⟨t, ht, htt⟩ := toStringLoop_append n (e1 :: rest) (pre ++ [e])
      (ss ++ padRightAligned 7 (showInt e.arrivalTime) ++ ['\t'] ++ ['\t'] ++
        padLeftAligned 13 (priorityName e.priorityCode) ++ padLeftAligned 16 e.name ++ ['\n'])
      (by rw [← hsplit]; exact hn) (by simp)
      (fun x hx => hcls x (List.mem_cons_of_mem _ hx))
    rw [← hsplit] at ht
    simp only [List.length_append, List.length_singleton, List.length_cons] at ht
    refine ⟨t, ht, ?_⟩
    rw [htt]
    simp [listingRow]

theorem reachable_minimal_immediate :
    Reachable ⟨[⟨"B".toList, 1, 2⟩, ⟨"A".toList, 4, 1⟩], 2⟩ :=
  Reachable.add ⟨[⟨"A".toList, 4, 1⟩], 1⟩ _ 1 "B".toList
    (Reachable.add empty _ 4 "A".toList Reachable.init (by decide)) (by decide)

/-- C16, evaluated: after add(minimal,"A") and add(immediate,"B") the vector
is ["B" arrival 2, "A" arrival 1] and `to_string` lists the row of arrival
number 2 before the row of arrival number 1: the rows are in heap array order,
not in the order of arrival. -/
theorem C16_listing_not_in_arrival_order :
    Reachable ⟨[⟨"B".toList, 1, 2⟩, ⟨"A".toList, 4, 1⟩], 2⟩ ∧
      (PatientPriorityQueuex.mk [⟨"B".toList, 1, 2⟩, ⟨"A".toList, 4, 1⟩] 2).to_string =
        some ("      2\t\timmediate    B               \n" ++
          "      1\t\tminimal      A               \n").toList ∧
      ¬ (∀ q : PatientPriorityQueuex, Reachable q →
          (q.data.map Patient.getArrivalTime).Pairwise (fun a b => a < b)) := by
  refine ⟨reachable_minimal_immediate, by decide, ?_⟩
  intro h
  have := h _ reachable_minimal_immediate
  exact absurd this (by decide)

/-- C17: for a queue with entries of class in `1..4` (and `heapSize` the
length of the vector), `to_string` returns the rows of `data[0]`, `data[1]`,
... in this order, each followed by a newline; a row is the arrival number
right-aligned in width 7, two tab characters, the priority name left-aligned
and padded to width 13, then the name left-aligned and padded to width 16,
neither being cut when longer. -/
theorem C17_listing_rows_in_array_order (q : PatientPriorityQueuex)
    (hwf : q.heapSize = q.data.length)
    (hcls : ∀ e ∈ q.data, 1 ≤ e.getPriorityCode ∧ e.getPriorityCode ≤ 4) :
    (∀ e ∈ q.data, getPriorityString e.getPriorityCode =
        some (priorityName e.getPriorityCode)) ∧
      (q.data ≠ [] → q.to_string = some ((q.data.map (fun e =>
        (List.replicate (7 - (showInt e.getArrivalTime).length) ' ' ++
            showInt e.getArrivalTime) ++ "\t\t".toList ++
          (priorityName e.getPriorityCode ++
            List.replicate (13 - (priorityName e.getPriorityCode).length) ' ') ++
          (e.getName ++ List.replicate (16 - e.getName.length) ' ') ++
          "\n".toList)).flatten)) ∧
      (q.data = [] → q.to_string = some "\n".toList) := by
  refine ⟨fun e he => getPriorityString_eq _ (hcls e he).1 (hcls e he).2, ?_, ?_⟩
  · intro hne
    obtain ⟨t, ht, htt⟩ := toStringLoop_append q.heapSize q.data [] []
      (by simpa using hwf) hne hcls
    simp only [List.length_nil, List.nil_append] at ht htt
    rw [← hwf] at ht
    simp only [to_string, ht, htt]
    congr 2
    apply List.map_congr_left
    intro e _
    simp [listingRow, padRightAligned, padLeftAligned, Patient.getArrivalTime,
      Patient.getPriorityCode, Patient.getName]
  · intro hnil
    have h0 : q.heapSize = 0 := by rw [hwf, hnil]; rfl
    simp [to_string, h0, toStringLoop]

/-- A use of C17 on the queue built by add(minimal,"A"), add(immediate,"B"). -/
theorem C17_listing_rows_in_array_order_witness :
    (∀ e ∈ ([⟨"B".toList, 1, 2⟩, ⟨"A".toList, 4, 1⟩] : List Patient),
      1 ≤ e.getPriorityCode ∧ e.getPriorityCode ≤ 4) ∧
    (PatientPriorityQueuex.mk [⟨"B".toList, 1, 2⟩, ⟨"A".toList, 4, 1⟩] 2).to_string =
      some (([⟨"B".toList, 1, 2⟩, ⟨"A".toList, 4, 1⟩] : List Patient).map (fun e =>
        (List.replicate (7 - (showInt e.getArrivalTime).length) ' ' ++
            showInt e.getArrivalTime) ++ "\t\t".toList ++
          (priorityName e.getPriorityCode ++
            List.replicate (13 - (priorityName e.getPriorityCode).length) ' ') ++
          (e.getName ++ List.replicate (16 - e.getName.length) ' ') ++
          "\n".toList)).flatten :=
  ⟨by decide,
    (C17_listing_rows_in_array_order ⟨[⟨"B".toList, 1, 2⟩, ⟨"A".toList, 4, 1⟩], 2⟩ rfl
      (by decide)).2.1 (by simp)⟩

end PatientPriorityQueuex

/-! ## The comparison operators, `change` and the heap, the add command -/

namespace PatientPriorityQueuex

theorem lt_eq_true_iff (a b : Patient) :
    a.lt b = true ↔ a.priorityCode < b.priorityCode ∨
      (a.priorityCode = b.priorityCode ∧ b.arrivalTime < a.arrivalTime) := by
  unfold Patient.lt
  by_cases h1 : a.priorityCode < b.priorityCode
  · simp [h1]
  · by_cases h2 : a.priorityCode = b.priorityCode
    · simp [h2]
    · simp only [h1, h2, if_false]
      constructor
      · intro h; cases h
      · intro h; simp at h

/-- C18: for entries with equal priority code, `a < b`, `a > b` and
`a.arrivalTime > b.arrivalTime` are equivalent; for entries with different
priority codes, `a < b` is `a.priorityCode < b.priorityCode` and `a > b` is
`a.priorityCode > b.priorityCode`. -/
theorem C18_operators_share_tie_break (a b : Patient) :
    (a.getPriorityCode = b.getPriorityCode →
      (a.lt b = true ↔ a.gt b = true) ∧
      (a.gt b = true ↔ a.getArrivalTime > b.getArrivalTime)) ∧
    (a.getPriorityCode ≠ b.getPriorityCode →
      (a.lt b = true ↔ a.getPriorityCode < b.getPriorityCode) ∧
      (a.gt b = true ↔ a.getPriorityCode > b.getPriorityCode)) := by
  simp only [Patient.getPriorityCode, Patient.getArrivalTime]
  constructor
  · intro h
    rw [lt_eq_true_iff, gt_eq_true_iff]
    constructor <;> constructor <;> intro h1 <;> omega
  · intro h
    rw [lt_eq_true_iff, gt_eq_true_iff]
    constructor <;> constructor <;> intro h1 <;> omega

/-- A use of C18 on two entries of class 1 with arrival numbers 2 and 1, and
on two entries of classes 1 and 4. -/
theorem C18_operators_share_tie_break_witness :
    (((Patient.mk "B".toList 1 2).lt ⟨"A".toList, 1, 1⟩ = true ↔
        (Patient.mk "B".toList 1 2).gt ⟨"A".toList, 1, 1⟩ = true) ∧
      ((Patient.mk "B".toList 1 2).gt ⟨"A".toList, 1, 1⟩ = true ↔
        (Patient.mk "B".toList 1 2).getArrivalTime >
          (Patient.mk "A".toList 1 1).getArrivalTime)) ∧
    (((Patient.mk "B".toList 1 2).lt ⟨"C".toList, 4, 1⟩ = true ↔
        (Patient.mk "B".toList 1 2).getPriorityCode <
          (Patient.mk "C".toList 4 1).getPriorityCode) ∧
      ((Patient.mk "B".toList 1 2).gt ⟨"C".toList, 4, 1⟩ = true ↔
        (Patient.mk "B".toList 1 2).getPriorityCode >
          (Patient.mk "C".toList 4 1).getPriorityCode)) :=
  ⟨(C18_operators_share_tie_break ⟨"B".toList, 1, 2⟩ ⟨"A".toList, 1, 1⟩).1 rfl,
    (C18_operators_share_tie_break ⟨"B".toList, 1, 2⟩ ⟨"C".toList, 4, 1⟩).2 (by decide)⟩

theorem reachableByAdd_immediate_emergency :
    ReachableByAdd ⟨[⟨"A".toList, 1, 1⟩, ⟨"B".toList, 2, 2⟩], 2⟩ :=
  ReachableByAdd.add ⟨[⟨"A".toList, 1, 1⟩], 1⟩ _ 2 "B".toList
    (ReachableByAdd.add empty _ 1 "A".toList ReachableByAdd.init (by decide)) (by decide)

/-- C19: the queue built by add(immediate,"A"), add(emergency,"B") satisfies
the heap invariant; change(1, 4) on it returns the vector ["A" class 4,
"B" class 2] unsifted, in which the child at index 1 ranks above its parent
at index 0. -/
theorem C19_change_breaks_heap_invariant :
    ∃ (q q1 : PatientPriorityQueuex) (arrivalID newPriority : Int) (msg : List Char),
      ReachableByAdd q ∧ SpecHeapInvariant q.data ∧
      (∃ e ∈ q.data, e.getArrivalTime = arrivalID) ∧
      1 ≤ newPriority ∧ newPriority ≤ 4 ∧
      q.change arrivalID newPriority = some (q1, msg) ∧
      q1.data = [⟨"A".toList, 4, 1⟩, ⟨"B".toList, 2, 2⟩] ∧
      (∃ (i c : Nat) (p e : Patient), (c = 2 * i + 1 ∨ c = 2 * i + 2) ∧
        q1.data[i]? = some p ∧ q1.data[c]? = some e ∧ specRanksAbove e p) ∧
      ¬ SpecHeapInvariant q1.data := by
  refine ⟨⟨[⟨"A".toList, 1, 1⟩, ⟨"B".toList, 2, 2⟩], 2⟩,
    ⟨[⟨"A".toList, 4, 1⟩, ⟨"B".toList, 2, 2⟩], 2⟩, 1, 4,
    "Changed patient A's priority to minimal".toList,
    reachableByAdd_immediate_emergency, ?_, ?_, by decide, by decide, by decide, rfl, ?_, ?_⟩
  · rw [specHeapInvariant_iff_minHeap]
    exact reachableByAdd_minHeap reachableByAdd_immediate_emergency
  · exact ⟨⟨"A".toList, 1, 1⟩, by simp, rfl⟩
  · exact ⟨0, 1, ⟨"A".toList, 4, 1⟩, ⟨"B".toList, 2, 2⟩, Or.inl rfl, rfl, rfl,
      Or.inl (by decide)⟩
  · intro h
    exact h 0 1 ⟨"A".toList, 4, 1⟩ ⟨"B".toList, 2, 2⟩ (Or.inl rfl) rfl rfl
      (Or.inl (by decide))

end PatientPriorityQueuex

namespace P3x

open PatientPriorityQueuex

/-- C20, evaluated: on the argument line "immediate", which has a priority
token and no name after it, `addPatientCmd` adds a patient named "immediate"
of class 1 to the empty queue instead of leaving the queue unchanged; the
same happens through `processLine` for the input "add immediate ". -/
theorem C20_add_without_name_adds_entry :
    parseAddPatientInput "immediate".toList
        = some ("immediate".toList, "immediate".toList) ∧
      addPatientCmd "immediate".toList empty
        = some ⟨[⟨"immediate".toList, 1, 1⟩], 1⟩ ∧
      delimitBySpace "immediate".toList = ("immediate".toList, "immediate".toList) ∧
      processLineFuel (fun _ => 0) 1 "add immediate ".toList (noFiles, empty)
        = some (true, (noFiles, ⟨[⟨"immediate".toList, 1, 1⟩], 1⟩)) := by
  refine ⟨by decide, by decide, by decide, ?_⟩
  have h : delimitBySpace "add immediate ".toList = ("add".toList, "immediate ".toList) := by
    decide
  have hadd : addPatientCmd "immediate ".toList empty
      = some ⟨[⟨"immediate".toList, 1, 1⟩], 1⟩ := by decide
  have hlen : ("add".toList).length ≠ 0 := by decide
  have hlow : toLower "add".toList = "add".toList := by decide
  have hhelp : ¬ "add".toList = "help".toList := by decide
  unfold processLineFuel
  simp only [h, hlen, if_false, hlow, hhelp, if_true, hadd]

end P3x

/-! ## Termination of the sift operations -/

namespace PatientPriorityQueuex

theorem siftUpFuel_succ :
    ∀ (fuel : Nat) (data : List Patient) (index : Nat) (r : List Patient),
      siftUpFuel fuel data index = some r → siftUpFuel (fuel + 1) data index = some r
  | 0, _, _, _, h => by simp [siftUpFuel] at h
  | fuel + 1, data, index, r, h => by
    rw [siftUpFuel] at h ⊢
    by_cases h0 : index = 0
    · simpa [h0] using h
    · simp only [ne_eq, h0, not_false_eq_true, if_true] at h ⊢
      cases hp : data[getParent index]? with
      | none => simp [hp] at h
      | some p =>
        cases hc : data[index]? with
        | none => simp [hp, hc] at h
        | some c =>
          simp only [hp, hc] at h ⊢
          by_cases hgt : p.gt c = true
          · simp only [hgt, if_true] at h ⊢
            cases hs : swapAt data (getParent index) index with
            | none => simp [hs] at h
            | some d1 =>
              simp only [hs] at h ⊢
              exact siftUpFuel_succ fuel d1 _ r h
          · simpa [hgt] using h

theorem siftUpFuel_add (fuel : Nat) (data : List Patient) (index : Nat) (r : List Patient)
    (h : siftUpFuel fuel data index = some r) :
    ∀ k : Nat, siftUpFuel (fuel + k) data index = some r
  | 0 => h
  | k + 1 => siftUpFuel_succ _ _ _ _ (siftUpFuel_add fuel data index r h k)

theorem siftDownFuel_succ :
    ∀ (fuel : Nat) (data : List Patient) (index : Nat) (r : List Patient),
      siftDownFuel fuel data index = some r → siftDownFuel (fuel + 1) data index = some r
  | 0, _, _, _, h => by simp [siftDownFuel] at h
  | fuel + 1, data, index, r, h => by
    rw [siftDownFuel] at h ⊢
    split at h
    · cases h
    · exact h
    · rename_i maxIdx heq
      cases hx : data[index]? with
      | none => simp [hx] at h
      | some x =>
        cases hm : data[maxIdx]? with
        | none => simp [hx, hm] at h
        | some m =>
          simp only [hx, hm] at h ⊢
          by_cases hlt : x.lt m = true
          · simp only [hlt, if_true] at h ⊢
            cases hs : swapAt data maxIdx index with
            | none => simp [hs] at h
            | some d1 =>
              simp only [hs] at h ⊢
              exact siftDownFuel_succ fuel d1 _ r h
          · simpa [hlt] using h

theorem siftDownFuel_add (fuel : Nat) (data : List Patient) (index : Nat) (r : List Patient)
    (h : siftDownFuel fuel data index = some r) :
    ∀ k : Nat, siftDownFuel (fuel + k) data index = some r
  | 0 => h
  | k + 1 => siftDownFuel_succ _ _ _ _ (siftDownFuel_add fuel data index r h k)

theorem siftDownFuel_tight :
    ∀ (fuel : Nat) (data : List Patient) (index : Nat),
      index < data.length → data.length ≤ fuel + index →
        ∃ r, siftDownFuel fuel data index = some r
  | 0, _, _, h1, h2 => by omega
  | fuel + 1, data, index, hi, hlen => by
    unfold siftDownFuel
    simp only [getLeftChild, getRightChild]
    have step : ∀ maxIdx, maxIdx < data.length → index < maxIdx →
        ∃ r, (match data[index]?, data[maxIdx]? with
          | some x, some m =>
            if x.lt m then
              match swapAt data maxIdx index with
              | some data1 => siftDownFuel fuel data1 maxIdx
              | none => none
            else some data
          | _, _ => none) = some r := by
      intro maxIdx hm him
      simp only [List.getElem?_eq_getElem hi, List.getElem?_eq_getElem hm]
      by_cases hlt : data[index].lt data[maxIdx] = true
      · simp only [hlt, if_true, swapAt_eq_some data _ _ hm hi]
        have hperm := swapAt_perm (swapAt_eq_some data _ _ hm hi)
        exact siftDownFuel_tight fuel _ maxIdx (by rw [hperm.length_eq]; exact hm)
          (by rw [hperm.length_eq]; omega)
      · simp [hlt]
    by_cases hr : 2 * index + 2 ≥ data.length
    · by_cases hl : 2 * index + 1 ≥ data.length
      · simp [hr, hl]
      · simp only [hr, hl, if_true, if_false]
        exact step _ (by omega) (by omega)
    · have hr1 : 2 * index + 2 < data.length := by omega
      have hl1 : 2 * index + 1 < data.length := by omega
      simp only [hr, if_false, List.getElem?_eq_getElem hr1, List.getElem?_eq_getElem hl1]
      by_cases hgt : data[2 * index + 1].gt data[2 * index + 2] = true
      · simp only [hgt, if_true]
        exact step _ (by omega) (by omega)
      · simp only [hgt, if_false]
        exact step _ (by omega) (by omega)

end PatientPriorityQueuex

namespace PatientPriorityQueuex

/-- C22: the parent index is strictly smaller and the child indices are
strictly larger; for an index below the length of the vector, `siftUp(index)`
returns within `index + 1` calls (at most `index` recursive ones) and
`siftDown(index)` within `length - index` calls, a larger budget giving the
same result; hence `add` returns on every queue and `remove` on every
non-empty queue (with `heapSize` the length of the vector). -/
theorem C22_sift_operations_terminate :
    (∀ index : Nat, index ≠ 0 → getParent index < index) ∧
    (∀ index : Nat, index < getLeftChild index ∧ index < getRightChild index) ∧
    (∀ (data : List Patient) (index : Nat), index < data.length →
      ∃ r, siftUpFuel (index + 1) data index = some r ∧ siftUp data index = some r ∧
        ∀ k : Nat, siftUpFuel (index + 1 + k) data index = some r) ∧
    (∀ (data : List Patient) (index : Nat), index < data.length →
      ∃ r, siftDownFuel (data.length - index) data index = some r ∧
        siftDown data index = some r ∧
        ∀ k : Nat, siftDownFuel (data.length - index + k) data index = some r) ∧
    (∀ (q : PatientPriorityQueuex) (p : Patient), q.heapSize = q.data.length →
      ∃ q1, q.add p = some q1) ∧
    (∀ q : PatientPriorityQueuex, q.heapSize = q.data.length → q.size ≠ 0 →
      ∃ q1, q.remove = some q1) := by
  refine ⟨fun index h => getParent_lt h, ?_, ?_, ?_, ?_, ?_⟩
  · intro index
    unfold getLeftChild getRightChild
    omega
  · intro data index h
    obtain ⟨r, hr, _⟩ := siftUp_some data index h
    exact ⟨r, hr, hr, siftUpFuel_add _ _ _ _ hr⟩
  · intro data index h
    obtain ⟨r, hr⟩ := siftDownFuel_tight (data.length - index) data index h (by omega)
    refine ⟨r, hr, ?_, siftDownFuel_add _ _ _ _ hr⟩
    have := siftDownFuel_add _ _ _ _ hr (index + 1)
    have heq : data.length - index + (index + 1) = data.length + 1 := by omega
    rw [heq] at this
    exact this
  · intro q p hwf
    obtain ⟨q1, h1, _⟩ := add_some q p hwf
    exact ⟨q1, h1⟩
  · intro q hwf hne
    cases hd : q.data with
    | nil =>
      have : q.heapSize = 0 := by rw [hwf, hd]; rfl
      exact absurd this hne
    | cons root rest =>
      obtain ⟨q1, h1, _⟩ := remove_some q root rest hwf hd
      exact ⟨q1, h1⟩

theorem builtByAdd_wf {q : PatientPriorityQueuex} (h : BuiltByAdd q) :
    q.heapSize = q.data.length := by
  induction h with
  | init => rfl
  | add q q1 p _ hadd ih => exact (add_eq_some ih hadd).2.2

theorem builtByAdd_minHeap {q : PatientPriorityQueuex} (h : BuiltByAdd q) :
    MinHeap q.data := by
  induction h with
  | init =>
    intro j p c _ _ hc
    simp [empty] at hc
  | add q q1 p hq hadd ih => exact add_minHeap (builtByAdd_wf hq) ih hadd

/-- C23: in a non-empty queue built from the empty queue by `add` calls alone,
with arbitrary entries, the root entry, the one `peek` names, is a minimum of
the lexicographic (priority code, arrival number) order: no entry has a
smaller priority code, and no entry with the root's priority code has a
smaller arrival number. -/
theorem C23_root_is_minimum_after_adds (q : PatientPriorityQueuex) (h : BuiltByAdd q)
    (r : Patient) (hr : q.data[0]? = some r) :
    q.peek = some r.getName ∧
      ∀ e ∈ q.data, r.getPriorityCode ≤ e.getPriorityCode ∧
        (e.getPriorityCode = r.getPriorityCode → r.getArrivalTime ≤ e.getArrivalTime) := by
  have hwf := builtByAdd_wf h
  have hheap := builtByAdd_minHeap h
  constructor
  · cases hd : q.data with
    | nil => rw [hd] at hr; cases hr
    | cons x xs =>
      rw [hd] at hr
      simp only [List.getElem?_cons_zero, Option.some.injEq] at hr
      subst hr
      have hne : q.heapSize ≠ 0 := by rw [hwf, hd]; simp
      simp [peek, hne, hd]
  · intro e he
    obtain ⟨i, hi, hie⟩ := List.getElem_of_mem he
    have := minHeap_root_le q.data hheap r hr i e (by rw [List.getElem?_eq_getElem hi, hie])
    rw [gt_eq_false_iff] at this
    simp only [Patient.getPriorityCode, Patient.getArrivalTime]
    omega

/-- A use of C23 on the queue built by adding "A" (class 3, arrival 7), then
"B" (class 1, arrival 9), then "C" (class 1, arrival 2). -/
theorem C23_root_is_minimum_after_adds_witness :
    BuiltByAdd ⟨[⟨"C".toList, 1, 2⟩, ⟨"A".toList, 3, 7⟩, ⟨"B".toList, 1, 9⟩], 3⟩ ∧
      (PatientPriorityQueuex.mk [⟨"C".toList, 1, 2⟩, ⟨"A".toList, 3, 7⟩,
        ⟨"B".toList, 1, 9⟩] 3).peek = some (Patient.mk "C".toList 1 2).getName ∧
      ∀ e ∈ ([⟨"C".toList, 1, 2⟩, ⟨"A".toList, 3, 7⟩, ⟨"B".toList, 1, 9⟩] : List Patient),
        (Patient.mk "C".toList 1 2).getPriorityCode ≤ e.getPriorityCode ∧
          (e.getPriorityCode = (Patient.mk "C".toList 1 2).getPriorityCode →
            (Patient.mk "C".toList 1 2).getArrivalTime ≤ e.getArrivalTime) :=
  have hb : BuiltByAdd
      ⟨[⟨"C".toList, 1, 2⟩, ⟨"A".toList, 3, 7⟩, ⟨"B".toList, 1, 9⟩], 3⟩ :=
    BuiltByAdd.add ⟨[⟨"B".toList, 1, 9⟩, ⟨"A".toList, 3, 7⟩], 2⟩ _ ⟨"C".toList, 1, 2⟩
      (BuiltByAdd.add ⟨[⟨"A".toList, 3, 7⟩], 1⟩ _ ⟨"B".toList, 1, 9⟩
        (BuiltByAdd.add empty _ ⟨"A".toList, 3, 7⟩ BuiltByAdd.init (by decide))
        (by decide))
      (by decide)
  ⟨hb, C23_root_is_minimum_after_adds _ hb ⟨"C".toList, 1, 2⟩ rfl⟩

end PatientPriorityQueuex

namespace P3x

open PatientPriorityQueuex

/-- C21: on every queue (with `heapSize` the length of the vector) the peek
command and the next command return, never reaching the failing assertion;
on an empty queue both leave the queue as it is; on a non-empty queue the
peek command leaves the queue as it is and the next command returns the
result of `remove`, one entry smaller, from which the root, the entry whose
name `peek` returns, has been deleted and the others renumbered. -/
theorem C21_commands_never_assert (q : PatientPriorityQueuex)
    (hwf : q.heapSize = q.data.length) :
    peekNextCmd q = some q ∧
      (q.size = 0 → removePatientCmd q = some q) ∧
      (q.size ≠ 0 → ∃ r q1, q.data[0]? = some r ∧ q.peek = some r.getName ∧
        removePatientCmd q = some q1 ∧ q.remove = some q1 ∧ q1.size + 1 = q.size ∧
        (q1.data : Multiset Patient) =
          ((q.data : Multiset Patient).erase r).map (fun e =>
            if e.arrivalTime > r.arrivalTime then
              ⟨e.name, e.priorityCode, e.arrivalTime - 1⟩
            else e)) := by
  cases hd : q.data with
  | nil =>
    have h0 : q.heapSize = 0 := by rw [hwf, hd]; rfl
    simp [peekNextCmd, removePatientCmd, size, h0]
  | cons root rest =>
    have hne : q.heapSize ≠ 0 := by rw [hwf, hd]; simp
    have hpeek : q.peek = some root.getName := by simp [peek, hne, hd]
    obtain ⟨q1, h1, hperm, hsz, _⟩ := remove_some q root rest hwf hd
    refine ⟨?_, ?_, ?_⟩
    · simp [peekNextCmd, size, hne, hpeek]
    · intro h
      exact absurd h hne
    · intro _
      refine ⟨root, q1, by simp, hpeek, ?_, h1, ?_, ?_⟩
      · simp [removePatientCmd, size, hne, hpeek, h1]
      · simp only [size, hsz]
        omega
      · rw [Multiset.coe_erase, List.erase_cons_head, Multiset.map_coe, Multiset.coe_eq_coe]
        exact hperm

/-- A use of C21 on the queue built by add(immediate,"A"), add(minimal,"B"). -/
theorem C21_commands_never_assert_witness :
    peekNextCmd ⟨[⟨"A".toList, 1, 1⟩, ⟨"B".toList, 4, 2⟩], 2⟩ =
        some ⟨[⟨"A".toList, 1, 1⟩, ⟨"B".toList, 4, 2⟩], 2⟩ ∧
      ∃ r q1, ([⟨"A".toList, 1, 1⟩, ⟨"B".toList, 4, 2⟩] : List Patient)[0]? = some r ∧
        (PatientPriorityQueuex.mk [⟨"A".toList, 1, 1⟩, ⟨"B".toList, 4, 2⟩] 2).peek
          = some r.getName ∧
        removePatientCmd ⟨[⟨"A".toList, 1, 1⟩, ⟨"B".toList, 4, 2⟩], 2⟩ = some q1 ∧
        (PatientPriorityQueuex.mk [⟨"A".toList, 1, 1⟩, ⟨"B".toList, 4, 2⟩] 2).remove
          = some q1 ∧
        q1.size + 1 = (PatientPriorityQueuex.mk [⟨"A".toList, 1, 1⟩, ⟨"B".toList, 4, 2⟩] 2).size ∧
        (q1.data : Multiset Patient) =
          ((([⟨"A".toList, 1, 1⟩, ⟨"B".toList, 4, 2⟩] : List Patient) :
              Multiset Patient).erase r).map (fun e =>
            if e.arrivalTime > r.arrivalTime then
              ⟨e.name, e.priorityCode, e.arrivalTime - 1⟩
            else e) :=
  ⟨(C21_commands_never_assert ⟨[⟨"A".toList, 1, 1⟩, ⟨"B".toList, 4, 2⟩], 2⟩ rfl).1,
    (C21_commands_never_assert ⟨[⟨"A".toList, 1, 1⟩, ⟨"B".toList, 4, 2⟩], 2⟩ rfl).2.2
      (by decide)⟩

end P3x
